import Mathlib

/-!
Verification development for the LL(1) analyzer (grammar model, FIRST/FOLLOW
fixed points, LL(1) validation, parsing-table construction, predictive parser
with panic-mode recovery).

The definitions below are a shallow embedding of the Rust sources
(`grammar.rs`, `first_follow.rs`, `validation.rs`, `table.rs`, `parser.rs`).
Rust `HashSet<String>` values are modelled as `Finset String` (only their set
contents are ever observable: insertion ordering never reaches a result),
`HashMap<String, HashSet<String>>` tables as functions `String → Option (Finset String)`
(`none` = key absent, matching `HashMap::get` returning `None`), and the
`while changed` fixed-point loops as fuel-indexed iteration where the fuel is
a computed upper bound on the number of changing passes (proved adequate below).
Rust `char::is_uppercase`/`is_lowercase` are modelled by the ASCII
`Char.isUpper`/`Char.isLower`; all identifier symbols used by this repository
are ASCII, and the reserved markers `ε`/`$` are neither upper nor lower in
both readings.
-/

namespace LL1

/-- Decidable equality of `Except` results (needed to evaluate concrete
parse/build outcomes by `decide`). -/
instance {ε α : Type} [DecidableEq ε] [DecidableEq α] : DecidableEq (Except ε α) :=
  fun x y =>
    match x, y with
    | .ok a, .ok b =>
      if h : a = b then .isTrue (by rw [h]) else .isFalse (by simp [h])
    | .error a, .error b =>
      if h : a = b then .isTrue (by rw [h]) else .isFalse (by simp [h])
    | .ok _, .error _ => .isFalse (by simp)
    | .error _, .ok _ => .isFalse (by simp)

/-- `Grammar::is_terminal` (grammar.rs): all characters lowercase. -/
def is_terminal (s : String) : Bool := s.data.all (·.isLower)

/-- `Grammar::is_non_terminal` (grammar.rs): all characters uppercase. -/
def is_non_terminal (s : String) : Bool := s.data.all (·.isUpper)

/-- `Grammar::is_valid_symbol` (grammar.rs). -/
def is_valid_symbol (s : String) : Bool :=
  s = "ε" || is_terminal s || is_non_terminal s

/-- `Production` (grammar.rs): a left-hand non-terminal and its derivation. -/
structure Production where
  non_terminal : String
  derivation : List String
deriving DecidableEq

/-- `Grammar` (grammar.rs): productions in insertion order plus the two
symbol sets and the start symbol. -/
structure Grammar where
  productions : List Production
  terminals : Finset String
  non_terminals : Finset String
  start_symbol : String
deriving DecidableEq

/-- `Grammar::new` (grammar.rs): no validation of the start symbol happens here. -/
def Grammar.new (start_symbol : String) : Grammar :=
  ⟨[], ∅, ∅, start_symbol⟩

/-- `Grammar::update_symbols` (grammar.rs): classify each derivation symbol
into the terminal or non-terminal set, skipping `ε`. -/
def Grammar.update_symbols (g : Grammar) (derivation : List String) : Grammar :=
  derivation.foldl
    (fun g symbol =>
      if is_non_terminal symbol then
        { g with non_terminals := insert symbol g.non_terminals }
      else if symbol ≠ "ε" then
        { g with terminals := insert symbol g.terminals }
      else g)
    g

/-- `Grammar::add_production` (grammar.rs): the left-hand side goes into the
non-terminal set unconditionally, then the derivation symbols are classified,
then the production is appended (duplicates are kept). -/
def Grammar.add_production (g : Grammar) (nt : String) (derivation : List String) :
    Grammar :=
  let g := { g with non_terminals := insert nt g.non_terminals }
  let g := g.update_symbols derivation
  { g with productions := g.productions ++ [⟨nt, derivation⟩] }

/-- A FIRST/FOLLOW table: `HashMap<String, HashSet<String>>`. -/
abbrev SymTable := String → Option (Finset String)

/-- Initial FIRST table (first_follow.rs, `compute_first_sets`): terminals map
to their singleton, then non-terminals are inserted mapping to the empty set
(a symbol in both sets ends at `∅`: the non-terminal loop runs second and
`HashMap::insert` overwrites). -/
def firstInit (g : Grammar) : SymTable := fun s =>
  if s ∈ g.non_terminals then some ∅
  else if s ∈ g.terminals then some {s}
  else none

/-- The in-order nullable scan shared by `compute_first_sets`,
`compute_follow_sets` (suffix scan) and `compute_first_of_string`
(first_follow.rs): accumulate the non-`ε` members of `FIRST(Xᵢ)`, stop at the
first symbol whose FIRST set lacks `ε`; a symbol absent from the table is
skipped (`if let Some`), leaving the nullable flag untouched.
Returns (accumulated set, all-nullable flag). -/
def firstScan (F : SymTable) : List String → Finset String × Bool
  | [] => (∅, true)
  | x :: xs =>
    match F x with
    | none => firstScan F xs
    | some s =>
      if "ε" ∈ s then
        let r := firstScan F xs
        (s.erase "ε" ∪ r.1, r.2)
      else (s.erase "ε", false)

/-- `Grammar::compute_first_of_string` (first_follow.rs). -/
def compute_first_of_string (F : SymTable) (string : List String) : Finset String :=
  if (firstScan F string).2 then insert "ε" (firstScan F string).1
  else (firstScan F string).1

/-- Insert all of `new` into the set at key `k` (`get_mut` + repeated
`insert`): a missing key is left untouched, and the returned flag records
whether any element was actually new. -/
def tableInsertAll (F : SymTable) (k : String) (new : Finset String) :
    SymTable × Bool :=
  match F k with
  | none => (F, false)
  | some old =>
    ((fun x => if x = k then some (old ∪ new) else F x), decide (¬ new ⊆ old))

/-- One production step of a FIRST pass (first_follow.rs, loop body): if the
derivation's first symbol is `ε` (Rust tests `production.derivation[0] == "ε"`;
the empty derivation, on which Rust would panic, falls to the scan branch),
add `ε` to `FIRST(A)` and move on; otherwise run the nullable scan and add its
contribution. The boolean accumulates the pass's `changed` flag. -/
def firstStep (acc : SymTable × Bool) (p : Production) : SymTable × Bool :=
  if p.derivation.head? = some "ε" then
    let r := tableInsertAll acc.1 p.non_terminal {"ε"}
    (r.1, acc.2 || r.2)
  else
    let s := firstScan acc.1 p.derivation
    let contrib := if s.2 then insert "ε" s.1 else s.1
    let r := tableInsertAll acc.1 p.non_terminal contrib
    (r.1, acc.2 || r.2)

/-- One full pass over all productions (updates are applied in place, exactly
as the Rust loop mutates `first_sets` mid-pass). -/
def firstPass (g : Grammar) (F : SymTable) : SymTable × Bool :=
  g.productions.foldl firstStep (F, false)

/-- The `while changed` loop, fuel-indexed. -/
def firstIter (g : Grammar) : Nat → SymTable → SymTable
  | 0, F => F
  | n + 1, F =>
    if (firstPass g F).2 then firstIter g n (firstPass g F).1
    else (firstPass g F).1

/-- Fuel bound: every tracked set stays inside `terminals ∪ {ε}` and every
changing pass strictly enlarges one of them, so
`|keys| * (|terminals| + 1) + 1` passes always reach the fixed point. -/
def firstFuel (g : Grammar) : Nat :=
  (g.terminals ∪ g.non_terminals).card * (g.terminals.card + 1) + 1

/-- `Grammar::compute_first_sets` (first_follow.rs). -/
def Grammar.compute_first_sets (g : Grammar) : SymTable :=
  firstIter g (firstFuel g) (firstInit g)

/-- Initial FOLLOW table (first_follow.rs, `compute_follow_sets`): every
non-terminal maps to `∅`, then `$` is inserted at the start symbol (Rust
`unwrap`s that key; a grammar whose start symbol is not in the non-terminal
set would panic there, and the model simply omits the `$` seed). -/
def followInit (g : Grammar) : SymTable := fun s =>
  if s ∈ g.non_terminals then
    some (if s = g.start_symbol then {"$"} else ∅)
  else none

/-- The buffered updates contributed by one production during a FOLLOW pass
(first_follow.rs): for each position `i` holding a non-terminal `B`, the
non-`ε` FIRST of the suffix after `i`; and, when that suffix is all-nullable
or `i` is the last position, the current `FOLLOW(A)` of the production's
left-hand side (skipped when that key is absent). -/
def followProdUpdates (g : Grammar) (F FL : SymTable) (p : Production) :
    List (String × Finset String) :=
  (List.range p.derivation.length).filterMap fun i =>
    if p.derivation.getD i "" ∈ g.non_terminals then
      some (p.derivation.getD i "",
        (firstScan F (p.derivation.drop (i + 1))).1 ∪
          (if (firstScan F (p.derivation.drop (i + 1))).2 ∨
              i = p.derivation.length - 1
            then (FL p.non_terminal).getD ∅ else ∅))
    else none

/-- All buffered updates of one FOLLOW pass. -/
def followUpdates (g : Grammar) (F FL : SymTable) : List (String × Finset String) :=
  g.productions.flatMap (followProdUpdates g F FL)

/-- Apply a pass's buffered updates at once (the Rust loop applies them
sequentially; inserts at distinct keys are independent and inserting into a
missing key is skipped, so the result is the pointwise union, and the
`changed` flag is `true` exactly when some update carries an element that the
pre-pass table lacked at a present key). -/
def followApply (FL : SymTable) (ups : List (String × Finset String)) : SymTable :=
  fun k =>
    match FL k with
    | none => none
    | some old => some (ups.foldl (fun a u => if u.1 = k then a ∪ u.2 else a) old)

/-- One FOLLOW pass: collect buffered updates, apply them, report change. -/
def followPass (g : Grammar) (F : SymTable) (FL : SymTable) : SymTable × Bool :=
  (followApply FL (followUpdates g F FL),
    (followUpdates g F FL).any fun u =>
      match FL u.1 with
      | none => false
      | some old => decide (¬ u.2 ⊆ old))

/-- The FOLLOW `while changed` loop, fuel-indexed. -/
def followIter (g : Grammar) (F : SymTable) : Nat → SymTable → SymTable
  | 0, FL => FL
  | n + 1, FL =>
    if (followPass g F FL).2 then followIter g F n (followPass g F FL).1
    else (followPass g F FL).1

/-- Every element a FOLLOW set can ever receive: `$` plus the members of the
FIRST sets of symbols occurring in derivations. -/
def followUniverse (g : Grammar) (F : SymTable) : Finset String :=
  insert "$"
    (g.productions.foldl
      (fun acc p => acc ∪ p.derivation.foldl (fun a s => a ∪ (F s).getD ∅) ∅) ∅)

/-- Fuel bound for the FOLLOW fixed point. -/
def followFuel (g : Grammar) (F : SymTable) : Nat :=
  g.non_terminals.card * ((followUniverse g F).card + 1) + 1

/-- `Grammar::compute_follow_sets` (first_follow.rs). -/
def Grammar.compute_follow_sets (g : Grammar) (F : SymTable) : SymTable :=
  followIter g F (followFuel g F) (followInit g)

/-- The three pairwise LL(1) rules applied to one unordered pair of
productions of the same non-terminal (validation.rs, `is_ll1_first_follow`
inner loop): disjoint FIRSTs, and no FIRST/FOLLOW overlap when the other
side is nullable. A missing FOLLOW entry skips the ε-rules (`if let Some`). -/
def ll1PairOk (F FL : SymTable) (nt : String) (p q : Production) : Bool :=
  if ¬ Disjoint (compute_first_of_string F p.derivation)
      (compute_first_of_string F q.derivation) then false
  else
    match FL nt with
    | none => true
    | some follow =>
      if "ε" ∈ compute_first_of_string F p.derivation ∧
          ¬ Disjoint (compute_first_of_string F q.derivation) follow then false
      else if "ε" ∈ compute_first_of_string F q.derivation ∧
          ¬ Disjoint (compute_first_of_string F p.derivation) follow then false
      else true

/-- All ordered pairs `i < j` of a production group pass the rules. -/
def ll1GroupOk (F FL : SymTable) (nt : String) : List Production → Bool
  | [] => true
  | p :: ps => (ps.all fun q => ll1PairOk F FL nt p q) && ll1GroupOk F FL nt ps

/-- The productions of one non-terminal, in list order (the Rust grouping
via `HashMap::entry` preserves insertion order within each group). -/
def Grammar.productions_of (g : Grammar) (nt : String) : List Production :=
  g.productions.filter (fun p => p.non_terminal = nt)

/-- `Grammar::is_ll1_first_follow` (validation.rs): group the productions by
non-terminal and test every pair (the group iteration order of the Rust
`HashMap` cannot affect the conjunction; the Rust function computes the two
tables once up front, which is observationally the same). -/
def Grammar.is_ll1_first_follow (g : Grammar) : Bool :=
  (g.productions.map (fun p => p.non_terminal)).dedup.all fun nt =>
    ll1GroupOk g.compute_first_sets (g.compute_follow_sets g.compute_first_sets)
      nt (g.productions_of nt)

/-- The parsing table map: `HashMap<(String, String), Vec<String>>`. -/
abbrev TableMap := String × String → Option (List String)

/-- `ParsingTable` (table.rs): the cell map plus the sorted vocabularies kept
for display. -/
structure ParsingTable where
  table : TableMap
  non_terminals : List String
  terminals : List String

/-- One production's insertions during table construction (table.rs,
`ParsingTable::build` loop body). For every non-`ε` terminal of
FIRST-of-rhs the cell `(A, t)` is written; if the cell key already exists —
whatever production it holds — the conflict flag latches. If `ε` is in
FIRST-of-rhs the same is done for every terminal of `FOLLOW(A)`, checking
against the table as already extended by this production's FIRST writes
(inserts at distinct keys are independent, so the set-iteration order of the
Rust `HashSet` cannot affect either the final map or the flag). -/
def buildStep (F FL : SymTable) (acc : TableMap × Bool) (p : Production) :
    TableMap × Bool :=
  let fos := compute_first_of_string F p.derivation
  let t1 : TableMap := fun key =>
    if key.1 = p.non_terminal ∧ key.2 ∈ fos.erase "ε" then some p.derivation
    else acc.1 key
  let c1 := acc.2 || decide (∃ t ∈ fos.erase "ε", acc.1 (p.non_terminal, t) ≠ none)
  if "ε" ∈ fos then
    let fl := (FL p.non_terminal).getD ∅
    let t2 : TableMap := fun key =>
      if key.1 = p.non_terminal ∧ key.2 ∈ fl then some p.derivation
      else t1 key
    (t2, c1 || decide (∃ t ∈ fl, t1 (p.non_terminal, t) ≠ none))
  else (t1, c1)

/-- `ParsingTable::build` (table.rs): run the insertions over all productions;
fail when any conflict was recorded, otherwise return the table together with
the sorted display vocabularies (terminals plus `$`). -/
def ParsingTable.build (g : Grammar) : Except String ParsingTable :=
  let F := g.compute_first_sets
  let FL := g.compute_follow_sets F
  let r := g.productions.foldl (buildStep F FL) ((fun _ => none), false)
  if r.2 then .error "Grammar is not LL(1) - parsing table has conflicts"
  else
    .ok ⟨r.1, g.non_terminals.sort (· ≤ ·), (insert "$" g.terminals).sort (· ≤ ·)⟩

/-- `Grammar::is_ll1_parsing_table` (validation.rs). -/
def Grammar.is_ll1_parsing_table (g : Grammar) : Bool :=
  match ParsingTable.build g with
  | .ok _ => true
  | .error _ => false

/-- `Grammar::is_ll1` (validation.rs): both checks must agree. (first_follow.rs
carries a superseded copy of the FIRST/FOLLOW check under the same name; its
body is identical to `is_ll1_first_follow`.) -/
def Grammar.is_ll1 (g : Grammar) : Bool :=
  g.is_ll1_first_follow && g.is_ll1_parsing_table

/-- `Parser` (parser.rs): grammar, built table, input characters, and the
FOLLOW sets precomputed for recovery. -/
structure Parser where
  grammar : Grammar
  parsing_table : ParsingTable
  input : List Char
  follow_sets : SymTable

/-- `Parser::new` (parser.rs): fails when table construction fails. -/
def Parser.new (g : Grammar) : Except String Parser :=
  let F := g.compute_first_sets
  let FL := g.compute_follow_sets F
  match ParsingTable.build g with
  | .error e => .error e
  | .ok t => .ok ⟨g, t, [], FL⟩

/-- `Parser::set_input` (parser.rs): the string is split into its characters. -/
def Parser.set_input (P : Parser) (input : String) : Parser :=
  { P with input := input.data }

/-- `Parser::validate_alignment` (parser.rs). The parse stack is a
`VecDeque` used back-as-top; it is modelled as a list whose head is the top.
The current input symbol is the one-character string of the cursor's char. -/
def Parser.validate_alignment (P : Parser) (stack : List String) (pos : Nat) : Bool :=
  match stack with
  | [] => false
  | top :: _ =>
    if pos < P.input.length then
      let current := (P.input.getD pos ' ').toString
      if top ∈ P.grammar.terminals then top = current
      else if top ∈ P.grammar.non_terminals then
        (P.parsing_table.table (top, current)).isSome
      else false
    else false

/-- Recovery strategy 1 (parser.rs, `recover`): scan the input forward from
the cursor for the first position aligned with the unchanged stack. -/
def Parser.skipScan (P : Parser) (stack : List String) (pos : Nat) : Option Nat :=
  (List.range' pos (P.input.length - pos)).find? fun q =>
    P.validate_alignment stack q

/-- Recovery strategy 2 (parser.rs, `recover`): pop stack symbols on a
scratch copy until the remaining stack aligns with the unchanged cursor. -/
def Parser.popScan (P : Parser) (pos : Nat) : List String → Option (List String)
  | [] => none
  | top :: rest =>
    if P.validate_alignment (top :: rest) pos then some (top :: rest)
    else P.popScan pos rest

/-- Recovery strategy 3 (parser.rs, `recover`): scan the input forward for
the first symbol in `FOLLOW(top)` (empty set when the top is not a FOLLOW
key or the stack is empty); commit by popping the top and moving the cursor. -/
def Parser.syncScan (P : Parser) (stack : List String) (pos : Nat) : Option Nat :=
  let sync : Finset String :=
    match stack.head? with
    | some top => (P.follow_sets top).getD ∅
    | none => ∅
  (List.range' pos (P.input.length - pos)).find? fun q =>
    (P.input.getD q ' ').toString ∈ sync

/-- The tail of `Parser::recover` (parser.rs): given the committed
stack/cursor of the first strategy that claimed success (or `none` when all
three failed), re-validate; on re-validation failure restore only the cursor
— the stack keeps whatever the strategy did to it — and report failure. -/
def Parser.recoverCommit (P : Parser) (stack : List String) (pos : Nat) :
    Option (List String × Nat) → List String × Nat × Bool
  | none => (stack, pos, false)
  | some (st, q) =>
    if P.validate_alignment st q then (st, q, true)
    else (st, pos, false)

/-- `Parser::recover` (parser.rs): try the three strategies in order and
re-validate the first claimed success; no later strategy runs after a claimed
success, even when re-validation rejects it. Returns (stack, cursor,
success); the printing is dropped and the Rust function's `Result` wrapper,
which is always `Ok`, is omitted. -/
def Parser.recover (P : Parser) (stack : List String) (pos : Nat) :
    List String × Nat × Bool :=
  P.recoverCommit stack pos
    (match P.skipScan stack pos with
      | some q => some (stack, q)
      | none =>
        match P.popScan pos stack with
        | some st => some (st, pos)
        | none =>
          match P.syncScan stack pos with
          | some q => some (stack.tail, q)
          | none => none)

/-- `MAX_ERRORS` (parser.rs, `parse`). -/
def MAX_ERRORS : Nat := 10

/-- The `parse` main loop (parser.rs), fuel-indexed (the Rust loop has no
fuel; every claim is evaluated at a fuel large enough for the run). The
second component is a ghost counter of `recover` invocations — it changes no
behaviour and exists only to state the recovery-budget claims. -/
def Parser.parseLoop (P : Parser) :
    Nat → List String → Nat → Nat → Except String Unit × Nat
  | 0, _, _, _ => (.error "out of fuel", 0)
  | fuel + 1, stack, pos, errors =>
    if stack = [] ∨ ¬ pos < P.input.length then
      -- loop exit: the final acceptance check of `parse`
      if (pos = P.input.length ∨
            (pos = P.input.length - 1 ∧ P.input.getD pos ' ' = '$')) ∧
          (stack = [] ∨ stack = ["$"]) then (.ok (), 0)
      else (.error "Parsing failed: incomplete parse or extra input", 0)
    else if MAX_ERRORS ≤ errors then
      (.error "Too many errors encountered. Aborting parse.", 0)
    else
      match stack with
      | [] => (.error "Stack unexpectedly empty", 0)
      | top :: rest =>
        -- `current` is the one-character string of the cursor's char
        if top ∈ P.grammar.terminals ∨ top = "$" then
          if top = (P.input.getD pos ' ').toString then
            P.parseLoop fuel rest (pos + 1) errors
          else
            -- terminal mismatch: push the top back and recover
            if (P.recover (top :: rest) pos).2.2 then
              let k := P.parseLoop fuel (P.recover (top :: rest) pos).1
                (P.recover (top :: rest) pos).2.1 (errors + 1)
              (k.1, k.2 + 1)
            else (.error "Unable to recover from error", 1)
        else if top ∈ P.grammar.non_terminals then
          match P.parsing_table.table (top, (P.input.getD pos ' ').toString) with
          | some production =>
            P.parseLoop fuel (production.filter (· ≠ "ε") ++ rest) pos errors
          | none =>
            -- no production: push the non-terminal back and recover
            if (P.recover (top :: rest) pos).2.2 then
              let k := P.parseLoop fuel (P.recover (top :: rest) pos).1
                (P.recover (top :: rest) pos).2.1 (errors + 1)
              (k.1, k.2 + 1)
            else (.error "Unable to recover from error", 1)
        else (.error ("Invalid symbol on stack: " ++ top), 0)

/-- `Parser::parse` (parser.rs): append `$` to the input when missing,
start from stack `[start, $]` (start on top), cursor 0, error count 0. -/
def Parser.parse (P : Parser) (fuel : Nat) : Except String Unit × Nat :=
  let P := if P.input.getLast? ≠ some '$' then { P with input := P.input ++ ['$'] } else P
  P.parseLoop fuel [P.grammar.start_symbol, "$"] 0 0

/-- Build a parser for `g`, feed it `s`, and run `parse`: `none` when the
grammar has no parsing table. -/
def runParse (g : Grammar) (s : String) (fuel : Nat) : Option (Except String Unit × Nat) :=
  (Parser.new g).toOption.map fun P => (P.set_input s).parse fuel

/-- `Grammar::parse_production_line` (grammar.rs): trim, reject empty lines
and lines without exactly one `->`, split the right side on `|`. -/
def parse_production_line (line : String) : Option (String × List String) :=
  let line := line.trim
  if line = "" then none
  else
    let parts := line.splitOn "->"
    if parts.length ≠ 2 then none
    else
      let non_terminal := (parts.getD 0 "").trim
      let alternatives := ((parts.getD 1 "").trim.splitOn "|").map String.trim
      some (non_terminal, alternatives)

/-- `Grammar::parse_derivation` (grammar.rs): split on whitespace (the Rust
`Result` wrapper never errors and is dropped). -/
def parse_derivation (alternative : String) : List String :=
  (alternative.split Char.isWhitespace).filter (· ≠ "")

/-- `Grammar::validate_start_symbol` (grammar.rs). -/
def validate_start_symbol (start_symbol : String) : Except String Unit :=
  if ¬ is_non_terminal start_symbol then
    .error "Start symbol must be uppercase (non-terminal)"
  else .ok ()

/-- `Grammar::validate_non_terminal` (grammar.rs). -/
def validate_non_terminal (non_terminal : String) (line_num : Nat) :
    Except String Unit :=
  if ¬ is_non_terminal non_terminal then
    .error ("Error on line " ++ toString (line_num + 1) ++ ": Non-terminal '" ++
      non_terminal ++ "' must be uppercase")
  else .ok ()

/-- `Grammar::validate_derivation` (grammar.rs): error at the first invalid
symbol. -/
def validate_derivation (derivation : List String) (line_num : Nat) :
    Except String Unit :=
  match derivation.find? (fun s => ¬ is_valid_symbol s) with
  | some symbol =>
    .error ("Error on line " ++ toString (line_num + 1) ++ ": Invalid symbol '" ++
      symbol ++ "' in derivation")
  | none => .ok ()

/-- The alternatives loop of `Grammar::from_string` (grammar.rs). -/
def from_string_alts (non_terminal : String) (line_num : Nat) (g : Grammar) :
    List String → Except String Grammar
  | [] => .ok g
  | alternative :: rest =>
    let derivation := parse_derivation alternative
    match validate_derivation derivation line_num with
    | .error e => .error e
    | .ok _ =>
      let g := if derivation ≠ [] then g.add_production non_terminal derivation else g
      from_string_alts non_terminal line_num g rest

/-- The line loop of `Grammar::from_string` (grammar.rs). -/
def from_string_lines (g : Grammar) : List (Nat × String) → Except String Grammar
  | [] => .ok g
  | (line_num, line) :: rest =>
    match parse_production_line line with
    | none => from_string_lines g rest
    | some (non_terminal, alternatives) =>
      match validate_non_terminal non_terminal line_num with
      | .error e => .error e
      | .ok _ =>
        match from_string_alts non_terminal line_num g alternatives with
        | .error e => .error e
        | .ok g => from_string_lines g rest

/-- `Grammar::from_string` (grammar.rs): the start symbol is validated before
any line is parsed. Rust `str::lines` is modelled by splitting on a newline
(the possible trailing empty chunk is an empty line, which
`parse_production_line` skips). `Grammar::from_file` validates the extracted
start symbol the same way and then delegates here. -/
def Grammar.from_string (input : String) (start_symbol : String) :
    Except String Grammar :=
  match validate_start_symbol start_symbol with
  | .error e => .error e
  | .ok _ => from_string_lines (Grammar.new start_symbol) (input.splitOn "\n").enum

/-- A program-constructed sequence of `add_production` calls (the
construction path used by `main.rs`). -/
def buildGrammar (start : String) (calls : List (String × List String)) : Grammar :=
  calls.foldl (fun g c => g.add_production c.1 c.2) (Grammar.new start)

/-- Well-formedness as promised by the spec's data model (§3): productions
have in-set left-hand sides and nonempty derivations of classified symbols,
the two symbol sets are disjoint, and the reserved markers belong to
neither. Every grammar built through the validated ingestion path satisfies
this; it also rules out the inputs on which the Rust code would panic
(empty derivations indexed by `derivation[0]`). -/
def Grammar.WF (g : Grammar) : Prop :=
  (∀ p ∈ g.productions, p.non_terminal ∈ g.non_terminals ∧ p.derivation ≠ [] ∧
    ∀ s ∈ p.derivation, s = "ε" ∨ s ∈ g.terminals ∨ s ∈ g.non_terminals) ∧
  (∀ s ∈ g.terminals, s ∉ g.non_terminals) ∧
  "ε" ∉ g.terminals ∧ "$" ∉ g.terminals ∧ "ε" ∉ g.non_terminals ∧ "$" ∉ g.non_terminals

/-- No production starts with `ε` unless it is literally `[ε]` (rules out
the divergence of claim C5 between `FIRST(A)` and FIRST-of-rhs). -/
def Grammar.epsHeadedIsEpsilon (g : Grammar) : Prop :=
  ∀ p ∈ g.productions, p.derivation.head? = some "ε" → p.derivation = ["ε"]

/-- Whenever two productions of the same non-terminal are both nullable
(`ε` in FIRST-of-rhs), that non-terminal's FOLLOW set is nonempty — the
condition under which the validator's ε-overlap rejection is mirrored by an
actual table conflict. -/
def Grammar.epsPairsHaveFollow (g : Grammar) : Prop :=
  ∀ nt ∈ (g.productions.map (fun p => p.non_terminal)).dedup,
    (g.productions_of nt).Pairwise fun p q =>
      "ε" ∈ compute_first_of_string g.compute_first_sets p.derivation →
      "ε" ∈ compute_first_of_string g.compute_first_sets q.derivation →
      (g.compute_follow_sets g.compute_first_sets nt).getD ∅ ≠ ∅

instance (g : Grammar) : Decidable g.WF := by
  unfold Grammar.WF; infer_instance

instance (g : Grammar) : Decidable g.epsHeadedIsEpsilon := by
  unfold Grammar.epsHeadedIsEpsilon; infer_instance

instance (g : Grammar) : Decidable g.epsPairsHaveFollow := by
  unfold Grammar.epsPairsHaveFollow; infer_instance

/-- The Scenario A grammar of `main.rs`:
`S → A a B`, `A → b A | ε`, `B → c B | ε`, start `S`. -/
def gA : Grammar :=
  (((((Grammar.new "S").add_production "S" ["A", "a", "B"]).add_production "A"
    ["b", "A"]).add_production "A" ["ε"]).add_production "B"
    ["c", "B"]).add_production "B" ["ε"]

/-- Two duplicated nullable productions of an unreachable non-terminal:
`S → a`, `X → ε`, `X → ε`. -/
def gDupEps : Grammar :=
  (((Grammar.new "S").add_production "S" ["a"]).add_production "X"
    ["ε"]).add_production "X" ["ε"]

/-- A grammar whose nullability flows through an `ε`-headed two-symbol
derivation: `S → D b`, `D → B`, `B → ε x | b`. -/
def gEpsHead : Grammar :=
  ((((Grammar.new "S").add_production "S" ["D", "b"]).add_production "D"
    ["B"]).add_production "B" ["ε", "x"]).add_production "B" ["b"]

/-- `A → ε a`: a multi-symbol right-hand side starting with `ε`. -/
def gC5 : Grammar := (Grammar.new "A").add_production "A" ["ε", "a"]

/-- Duplicate production: `S → a` added twice. -/
def gDup : Grammar :=
  ((Grammar.new "S").add_production "S" ["a"]).add_production "S" ["a"]

/-- A grammar with the two-character terminal `ab`: `S → ab`. -/
def gMulti : Grammar := (Grammar.new "S").add_production "S" ["ab"]

/-- A placeholder parser used only as the default of `Option.getD` below. -/
def dummyParser (g : Grammar) : Parser :=
  ⟨g, ⟨fun _ => none, [], []⟩, [], fun _ => none⟩

/-- The Scenario A parser loaded with input `cc$` (the state `parse` reaches
on input `cc` when its first error occurs). -/
def parserCC : Parser :=
  ((Parser.new gA).toOption.getD (dummyParser gA)).set_input "cc$"

/-- A parser over `gMulti` with one input character. -/
def parserMulti : Parser :=
  ((Parser.new gMulti).toOption.getD (dummyParser gMulti)).set_input "x"

/-- The error message of a failed table construction (`ParsingTable` holds a
function-valued cell map, so outcomes are observed through this projection). -/
def buildError (g : Grammar) : Option String :=
  match ParsingTable.build g with
  | .error e => some e
  | .ok _ => none

/-- Pointwise order on symbol tables: same key domain, and each present set
contained in its counterpart. The fixed-point passes only ever enlarge the
sets of already-present keys, so every table reached from a common initial
table is comparable in this order. -/
def TableLE (F G : SymTable) : Prop :=
  (∀ k, (F k).isSome = (G k).isSome) ∧ ∀ k, (F k).getD ∅ ⊆ (G k).getD ∅

/-- The classification invariant that `add_production` maintains when fed
well-formed symbols: every terminal is a validated non-uppercase, non-`ε`
symbol and every non-terminal is uppercase. -/
def GrammarClassInv (g : Grammar) : Prop :=
  (∀ s ∈ g.terminals,
    is_non_terminal s = false ∧ s ≠ "ε" ∧ is_valid_symbol s = true) ∧
  (∀ s ∈ g.non_terminals, is_non_terminal s = true)

/-- What one production adds to `FIRST` of its left-hand side in a pass over
table `F`: just `ε` for an `ε`-headed derivation, the nullable-scan result
otherwise (which coincides with FIRST-of-rhs). -/
def prodContrib (F : SymTable) (p : Production) : Finset String :=
  if p.derivation.head? = some "ε" then {"ε"}
  else compute_first_of_string F p.derivation

/-- `F` absorbs every production's contribution (relative to the production
list `l`): the table is a post-fixed point of the FIRST pass. -/
def FirstClosedL (l : List Production) (F : SymTable) : Prop :=
  ∀ p ∈ l, ∀ old, F p.non_terminal = some old → prodContrib F p ⊆ old

/-- The key domain of a FIRST table never changes: exactly the terminals and
non-terminals. -/
def FirstDomInv (g : Grammar) (F : SymTable) : Prop :=
  ∀ k, (F k).isSome ↔ k ∈ g.terminals ∪ g.non_terminals

/-- Every tracked FIRST set stays inside `terminals ∪ {ε}`. -/
def FirstValInv (g : Grammar) (F : SymTable) : Prop :=
  ∀ k, (F k).getD ∅ ⊆ insert "ε" g.terminals

/-- Total size of a FIRST table, the termination measure of the fixed point. -/
def firstMeasure (g : Grammar) (F : SymTable) : Nat :=
  ∑ k ∈ (g.terminals ∪ g.non_terminals), ((F k).getD ∅).card

/-- The key domain of a FOLLOW table: exactly the non-terminals. -/
def FollowDomInv (g : Grammar) (FL : SymTable) : Prop :=
  ∀ k, (FL k).isSome ↔ k ∈ g.non_terminals

/-- Every tracked FOLLOW set stays inside the FOLLOW universe. -/
def FollowValInv (g : Grammar) (F FL : SymTable) : Prop :=
  ∀ k, (FL k).getD ∅ ⊆ followUniverse g F

/-- Total size of a FOLLOW table. -/
def followMeasure (g : Grammar) (FL : SymTable) : Nat :=
  ∑ k ∈ g.non_terminals, ((FL k).getD ∅).card

/-- A symbol the nullable scan passes through: its FIRST entry, when present,
contains `ε` (symbols absent from the table are skipped by the scan). -/
def NullableSym (F : SymTable) (x : String) : Prop :=
  ∀ s, F x = some s → "ε" ∈ s

/-- The table cells a production writes during `ParsingTable::build`: the
FIRST-of-rhs cells (without `ε`) and, when nullable, the FOLLOW cells. -/
def prodWrites (F FL : SymTable) (p : Production) (key : String × String) : Prop :=
  key.1 = p.non_terminal ∧
  (key.2 ∈ (compute_first_of_string F p.derivation).erase "ε" ∨
    ("ε" ∈ compute_first_of_string F p.derivation ∧
      key.2 ∈ (FL p.non_terminal).getD ∅))

/-! ## Theorems -/

/-- Claim C1, counterexample: the FIRST/FOLLOW validator and table
construction disagree in both directions. On `gDupEps` (`S → a`,
`X → ε`, `X → ε`: duplicated nullable productions of a non-terminal with an
empty FOLLOW set) the validator rejects, yet the table builds without
conflict because the conflicting productions produce no cell at all. On
`gEpsHead` (`S → D b`, `D → B`, `B → ε x | b`) the validator accepts, yet
table construction records a conflict at cell `(D, b)`: `FIRST(B)` contains
an `ε` that `FIRST`-of-rhs `[ε, x]` does not, so the nullability seen by the
single production `D → B` never shows up in any production pair. -/
theorem C1_counterexample :
    (gDupEps.is_ll1_first_follow = false ∧ (ParsingTable.build gDupEps).isOk = true) ∧
    (gEpsHead.is_ll1_first_follow = true ∧ (ParsingTable.build gEpsHead).isOk = false) := by
  decide

/-- Claim C2, counterexample: with the Scenario A parser on input `cc$` and
the initial stack `[S, $]` (the state in which `parse` raises its first
error), strategy 3 claims success (it pops `S` and moves the cursor to the
`$`), re-validation fails, and `recover` returns with the cursor restored to
0 but the stack left at `[$]` — not restored to `[S, $]` — and reports
failure without any further strategy; the whole parse then fails instead of
retrying. -/
theorem C2_counterexample :
    parserCC.recover ["S", "$"] 0 = (["$"], 0, false) ∧
    runParse gA "cc" 100 = some (.error "Unable to recover from error", 1) := by
  decide

/-- Claim C3, counterexample: adding the same production `S → a` twice makes
table construction fail — the second placement of the identical right-hand
side at the already-occupied cell `(S, a)` is recorded as a conflict. -/
theorem C3_counterexample :
    gDup.productions = [⟨"S", ["a"]⟩, ⟨"S", ["a"]⟩] ∧
    buildError gDup = some "Grammar is not LL(1) - parsing table has conflicts" := by
  decide

/-- Claim C5, counterexample: for the single production `A → ε a` (right-hand
side not literally `[ε]`), `compute_first_sets` adds `ε` to `FIRST(A)`
directly and never performs the nullable scan — the scan over `[ε, a]` would
contribute `{a}`, but `FIRST(A)` ends as `{ε}`. -/
theorem C5_counterexample :
    gC5.productions = [⟨"A", ["ε", "a"]⟩] ∧
    gC5.compute_first_sets "A" = some {"ε"} ∧
    compute_first_of_string gC5.compute_first_sets ["ε", "a"] = {"a"} := by
  decide

/-- Claim C6, counterexample: on input `bxbxbxbxbxbxbxbxbxbxx` against the
Scenario A grammar the parser performs exactly 10 recoveries (the ghost
counter), i.e. the error count reaches the budget, and the 10th recovery
fails — the parse terminates with the `Unable to recover from error` failure,
not with the `Too many errors` report the claim promises once the budget is
reached. -/
theorem C6_counterexample :
    runParse gA "bxbxbxbxbxbxbxbxbxbxx" 500 =
      some (.error "Unable to recover from error", 10) := by
  decide

/-- Claim C7: for the Scenario A grammar (`S → A a B`, `A → b A | ε`,
`B → c B | ε`, start `S`) the LL(1) check returns true, `FIRST(A) = {b, ε}`,
`FOLLOW(A) = {a}`, the table cell `(S, a)` holds `[A, a, B]`, and the parser
accepts the inputs `a`, `bacc` and `ba`. -/
theorem C7_scenarioA :
    gA.is_ll1 = true ∧
    gA.compute_first_sets "A" = some {"b", "ε"} ∧
    gA.compute_follow_sets gA.compute_first_sets "A" = some {"a"} ∧
    (ParsingTable.build gA).toOption.map (fun T => T.table ("S", "a")) =
      some (some ["A", "a", "B"]) ∧
    runParse gA "a" 100 = some (.ok (), 0) ∧
    runParse gA "bacc" 100 = some (.ok (), 0) ∧
    runParse gA "ba" 100 = some (.ok (), 0) := by
  decide

/-- Claim C8, counterexample: `Grammar::new` is a construction path that
performs no validation at all — `Grammar.new "a"` yields a grammar whose
start symbol `a` is not a non-terminal, with no error, and every downstream
component accepts that grammar value. -/
theorem C8_counterexample :
    Grammar.new "a" = ⟨[], ∅, ∅, "a"⟩ ∧ is_non_terminal "a" = false := by
  decide

/-- Claim C8, amended: only the `from_string`/`from_file` ingestion path
validates the start symbol; there it is checked before any line is read. -/
theorem C8_amended (input start_symbol : String)
    (h : is_non_terminal start_symbol = false) :
    Grammar.from_string input start_symbol =
      .error "Start symbol must be uppercase (non-terminal)" := by
  unfold Grammar.from_string validate_start_symbol
  simp [h]

/-- Claim C8, witness for the amended theorem. -/
theorem C8_witness :
    is_non_terminal "a" = false ∧
    Grammar.from_string "S -> a" "a" =
      .error "Start symbol must be uppercase (non-terminal)" :=
  ⟨by decide, C8_amended "S -> a" "a" (by decide)⟩

/-- Claim C9, counterexample: `add_production` classifies any non-uppercase,
non-`ε` derivation symbol as a terminal, so the reserved end marker `$` lands
in the terminal set. -/
theorem C9_counterexample :
    ((Grammar.new "S").add_production "S" ["$"]).terminals = {"$"} := by
  decide

theorem update_symbols_class_inv (derivation : List String) (g : Grammar)
    (hg : GrammarClassInv g)
    (hd : ∀ s ∈ derivation, is_valid_symbol s = true) :
    GrammarClassInv (g.update_symbols derivation) := by
  induction derivation generalizing g with
  | nil => exact hg
  | cons s rest ih =>
    have hs := hd s (List.mem_cons_self ..)
    have hrest : ∀ x ∈ rest, is_valid_symbol x = true := fun x hx =>
      hd x (List.mem_cons_of_mem _ hx)
    simp only [Grammar.update_symbols, List.foldl_cons]
    apply ih _ _ hrest
    by_cases hnt : is_non_terminal s = true
    · rw [if_pos hnt]
      refine ⟨hg.1, fun x hx => ?_⟩
      rcases Finset.mem_insert.1 hx with rfl | hx
      · exact hnt
      · exact hg.2 x hx
    · simp only [Bool.not_eq_true] at hnt
      by_cases heps : s = "ε"
      · subst heps
        rw [if_neg (by simp [hnt]), if_neg (by simp)]
        exact hg
      · rw [if_neg (by simp [hnt]), if_pos heps]
        refine ⟨fun x hx => ?_, hg.2⟩
        rcases Finset.mem_insert.1 hx with rfl | hx
        · exact ⟨hnt, heps, hs⟩
        · exact hg.1 x hx

theorem add_production_class_inv (g : Grammar) (nt : String)
    (derivation : List String) (hg : GrammarClassInv g)
    (hnt : is_non_terminal nt = true)
    (hd : ∀ s ∈ derivation, is_valid_symbol s = true) :
    GrammarClassInv (g.add_production nt derivation) := by
  simp only [Grammar.add_production]
  have h1 : GrammarClassInv { g with non_terminals := insert nt g.non_terminals } := by
    refine ⟨hg.1, fun x hx => ?_⟩
    rcases Finset.mem_insert.1 hx with rfl | hx
    · exact hnt
    · exact hg.2 x hx
  have h2 := update_symbols_class_inv derivation _ h1 hd
  exact ⟨h2.1, h2.2⟩

theorem class_inv_conclusions (g : Grammar) (h : GrammarClassInv g) :
    (∀ s ∈ g.terminals, s ∉ g.non_terminals) ∧
    "ε" ∉ g.terminals ∧ "$" ∉ g.terminals ∧
    "ε" ∉ g.non_terminals ∧ "$" ∉ g.non_terminals := by
  refine ⟨fun s hs hs' => ?_, fun hs => (h.1 _ hs).2.1 rfl, fun hs => ?_,
    fun hs => ?_, fun hs => ?_⟩
  · exact absurd (h.2 s hs') (by simp [(h.1 s hs).1])
  · have := h.1 _ hs
    exact absurd this.2.2 (by decide)
  · exact absurd (h.2 _ hs) (by decide)
  · exact absurd (h.2 _ hs) (by decide)

/-- Claim C9, amended: provided every `add_production` call supplies an
uppercase left-hand side and surface-valid derivation symbols (the
well-formedness the ingestion collaborator guarantees), the terminal and
non-terminal sets stay disjoint and neither ever contains `ε` or `$`; without
that proviso `add_production` happily inserts `$` into the terminal set or a
lowercase left-hand side into the non-terminal set. -/
theorem buildGrammar_fold_class_inv (calls : List (String × List String))
    (g : Grammar) (hg : GrammarClassInv g)
    (h : ∀ c ∈ calls, is_non_terminal c.1 = true ∧
      ∀ s ∈ c.2, is_valid_symbol s = true) :
    GrammarClassInv (calls.foldl (fun g c => g.add_production c.1 c.2) g) := by
  induction calls generalizing g with
  | nil => exact hg
  | cons c rest ih =>
    simp only [List.foldl_cons]
    exact ih _
      (add_production_class_inv g c.1 c.2 hg (h c (List.mem_cons_self ..)).1
        (h c (List.mem_cons_self ..)).2)
      (fun x hx => h x (List.mem_cons_of_mem _ hx))

/-- Claim C9, amended: provided every `add_production` call supplies an
uppercase left-hand side and surface-valid derivation symbols (the
well-formedness the ingestion collaborator guarantees), the terminal and
non-terminal sets stay disjoint and neither ever contains `ε` or `$`; without
that proviso `add_production` happily inserts `$` into the terminal set or a
lowercase left-hand side into the non-terminal set. -/
theorem C9_amended (start : String) (calls : List (String × List String))
    (h : ∀ c ∈ calls, is_non_terminal c.1 = true ∧
      ∀ s ∈ c.2, is_valid_symbol s = true) :
    (∀ s ∈ (buildGrammar start calls).terminals,
      s ∉ (buildGrammar start calls).non_terminals) ∧
    "ε" ∉ (buildGrammar start calls).terminals ∧
    "$" ∉ (buildGrammar start calls).terminals ∧
    "ε" ∉ (buildGrammar start calls).non_terminals ∧
    "$" ∉ (buildGrammar start calls).non_terminals := by
  apply class_inv_conclusions
  apply buildGrammar_fold_class_inv calls (Grammar.new start) _ h
  constructor <;> intro s hs <;> simp [Grammar.new] at hs

/-- Claim C9, witness for the amended theorem: the Scenario A construction
sequence satisfies the symbol hypotheses, and its grammar obeys the
classification invariant. -/
theorem C9_witness :
    (∀ c ∈ [("S", ["A", "a", "B"]), ("A", ["b", "A"]), ("A", ["ε"]),
        ("B", ["c", "B"]), ("B", ["ε"])],
      is_non_terminal c.1 = true ∧ ∀ s ∈ c.2, is_valid_symbol s = true) ∧
    ("ε" ∉ (buildGrammar "S" [("S", ["A", "a", "B"]), ("A", ["b", "A"]),
      ("A", ["ε"]), ("B", ["c", "B"]), ("B", ["ε"])]).terminals) :=
  ⟨by decide,
    (C9_amended "S" [("S", ["A", "a", "B"]), ("A", ["b", "A"]), ("A", ["ε"]),
      ("B", ["c", "B"]), ("B", ["ε"])] (by decide)).2.1⟩

/-- Claim C2, amended: re-validation takes place after the strategy loop;
when it fails (only strategy 3 can claim success and then fail it, since
strategies 1 and 2 commit exactly the alignment they re-validate), the cursor
— and only the cursor — is restored, no further strategy is tried, and
recovery reports failure. In general, whenever `recover` reports failure the
returned cursor equals the pre-recovery cursor. -/
theorem C2_amended (P : Parser) (stack : List String) (pos : Nat)
    (h : (P.recover stack pos).2.2 = false) :
    (P.recover stack pos).2.1 = pos := by
  unfold Parser.recover at h ⊢
  cases h1 : P.skipScan stack pos with
  | some q =>
    simp only [h1, Parser.recoverCommit] at h ⊢
    split at h
    · simp at h
    · rename_i hv; rw [if_neg hv]
  | none =>
    simp only [h1] at h ⊢
    cases h2 : P.popScan pos stack with
    | some st =>
      simp only [h2, Parser.recoverCommit] at h ⊢
      split at h
      · simp at h
      · rename_i hv; rw [if_neg hv]
    | none =>
      simp only [h2] at h ⊢
      cases h3 : P.syncScan stack pos with
      | some q =>
        simp only [h3, Parser.recoverCommit] at h ⊢
        split at h
        · simp at h
        · rename_i hv; rw [if_neg hv]
      | none => simp [h3, Parser.recoverCommit]

/-- Claim C2, witness for the amended theorem: the failing recovery of the
`cc` run has its cursor restored. -/
theorem C2_witness :
    (parserCC.recover ["S", "$"] 0).2.2 = false ∧
    (parserCC.recover ["S", "$"] 0).2.1 = 0 :=
  ⟨by decide, C2_amended parserCC ["S", "$"] 0 (by decide)⟩

theorem parseLoop_budget (P : Parser) (fuel : Nat) (stack : List String)
    (pos errors : Nat) (hs : stack ≠ []) (hp : pos < P.input.length)
    (he : MAX_ERRORS ≤ errors) :
    P.parseLoop (fuel + 1) stack pos errors =
      (.error "Too many errors encountered. Aborting parse.", 0) := by
  unfold Parser.parseLoop
  rw [if_neg (by simp [hs, hp]), if_pos he]

theorem parseLoop_recover_bound (P : Parser) :
    ∀ (fuel : Nat) (stack : List String) (pos errors : Nat),
      (P.parseLoop fuel stack pos errors).2 ≤ MAX_ERRORS - errors := by
  intro fuel
  induction fuel with
  | zero => intro stack pos errors; simp [Parser.parseLoop]
  | succ n ih =>
    intro stack pos errors
    unfold Parser.parseLoop
    split
    · split <;> simp
    · split
      · simp
      · rename_i hguard hbudget
        split
        · simp
        · rename_i top rest
          split
          · split
            · exact ih _ _ _
            · split
              · have hk := ih ((P.recover (top :: rest) pos).1)
                  ((P.recover (top :: rest) pos).2.1) (errors + 1)
                simp only [MAX_ERRORS] at hbudget hk ⊢
                omega
              · simp only [MAX_ERRORS] at hbudget ⊢
                omega
          · split
            · split
              · exact ih _ _ _
              · split
                · have hk := ih ((P.recover (top :: rest) pos).1)
                    ((P.recover (top :: rest) pos).2.1) (errors + 1)
                  simp only [MAX_ERRORS] at hbudget hk ⊢
                  omega
                · simp only [MAX_ERRORS] at hbudget ⊢
                  omega
            · simp

/-- Claim C6, amended: recovery is invoked at most 10 times in one parse (the
ghost invocation counter never exceeds `MAX_ERRORS - errors`), and once the
error count has reached the budget the next loop iteration aborts with the
explicit `Too many errors` failure — but when the budget-reaching recovery
itself fails, the parse instead terminates immediately with the
`Unable to recover from error` failure, so the `too many errors` report is
only produced when the most recent recovery succeeded. -/
theorem C6_amended :
    (∀ (P : Parser) (fuel : Nat) (stack : List String) (pos errors : Nat),
      stack ≠ [] → pos < P.input.length → MAX_ERRORS ≤ errors →
      P.parseLoop (fuel + 1) stack pos errors =
        (.error "Too many errors encountered. Aborting parse.", 0)) ∧
    (∀ (P : Parser) (fuel : Nat) (stack : List String) (pos errors : Nat),
      (P.parseLoop fuel stack pos errors).2 ≤ MAX_ERRORS - errors) :=
  ⟨fun P fuel stack pos errors hs hp he =>
      parseLoop_budget P fuel stack pos errors hs hp he,
    fun P fuel stack pos errors => parseLoop_recover_bound P fuel stack pos errors⟩

/-- Claim C6, witness for the amended theorem at a concrete over-budget
state and at the whole `cc` parse. -/
theorem C6_witness :
    (parserCC.parseLoop 7 ["S", "$"] 0 12 =
      (.error "Too many errors encountered. Aborting parse.", 0)) ∧
    (parserCC.parseLoop 100 ["S", "$"] 0 0).2 ≤ MAX_ERRORS - 0 :=
  ⟨C6_amended.1 parserCC 6 ["S", "$"] 0 12 (by decide) (by decide) (by decide),
    C6_amended.2 parserCC 100 ["S", "$"] 0 0⟩

theorem char_toString_length (c : Char) : (Char.toString c).length = 1 := rfl

/-- Claim C10: `set_input` stores the input as individual characters, the
current input symbol is always the one-character string of the cursor's
char, so a terminal whose name has two or more characters never equals the
current input symbol, never aligns in `validate_alignment`, and on top of
the stack always sends the parse step into the error/recovery branch (the
ghost recovery counter of that step is positive) — it can never be matched. -/
theorem C10_long_terminals (P : Parser) (s : String)
    (hterm : s ∈ P.grammar.terminals) (hlen : 2 ≤ s.length) :
    (∀ c : Char, c.toString ≠ s) ∧
    (∀ (stack : List String) (pos : Nat),
      P.validate_alignment (s :: stack) pos = false) ∧
    (∀ str, (P.set_input str).input = str.data) ∧
    (∀ (fuel : Nat) (stack : List String) (pos errors : Nat),
      pos < P.input.length → errors < MAX_ERRORS →
      1 ≤ (P.parseLoop (fuel + 1) (s :: stack) pos errors).2) := by
  have hne : ∀ c : Char, c.toString ≠ s := by
    intro c hc
    have h1 : (Char.toString c).length = 1 := char_toString_length c
    rw [hc] at h1
    omega
  refine ⟨hne, ?_, fun _ => rfl, ?_⟩
  · intro stack pos
    simp only [Parser.validate_alignment, hterm, if_true, if_pos]
    split
    · simp only [decide_eq_false_iff_not]
      exact fun hh => hne _ hh.symm
    · rfl
  · intro fuel stack pos errors hpos herr
    unfold Parser.parseLoop
    rw [if_neg (by simp [hpos]), if_neg (by omega)]
    show 1 ≤ (if s ∈ P.grammar.terminals ∨ s = "$" then _ else _ : Except String Unit × Nat).2
    rw [if_pos (Or.inl hterm), if_neg (fun hh => hne _ hh.symm)]
    split
    · exact Nat.succ_le_succ (Nat.zero_le _)
    · exact Nat.le_refl 1

/-- Claim C10, witness: the grammar `S → ab` has the two-character terminal
`ab`; on its parser (input `x`) the terminal never aligns and the first parse
step with `ab` on top goes into recovery. -/
theorem C10_witness :
    ("ab" ∈ parserMulti.grammar.terminals ∧ 2 ≤ "ab".length) ∧
    Char.toString 'a' ≠ "ab" ∧
    parserMulti.validate_alignment ["ab"] 0 = false ∧
    (parserMulti.set_input "zz").input = "zz".data ∧
    1 ≤ (parserMulti.parseLoop 7 ["ab"] 0 0).2 :=
  ⟨⟨by decide, by decide⟩,
    (C10_long_terminals parserMulti "ab" (by decide) (by decide)).1 'a',
    (C10_long_terminals parserMulti "ab" (by decide) (by decide)).2.1 [] 0,
    (C10_long_terminals parserMulti "ab" (by decide) (by decide)).2.2.1 "zz",
    (C10_long_terminals parserMulti "ab" (by decide) (by decide)).2.2.2 6 [] 0 0
      (by decide) (by decide)⟩

theorem TableLE.rfl (F : SymTable) : TableLE F F :=
  ⟨fun _ => Eq.refl _, fun _ => Finset.Subset.refl _⟩

theorem TableLE.trans {F G H : SymTable} (h1 : TableLE F G) (h2 : TableLE G H) :
    TableLE F H :=
  ⟨fun k => (h1.1 k).trans (h2.1 k), fun k => (h1.2 k).trans (h2.2 k)⟩

theorem TableLE.ext {F G : SymTable} (h1 : TableLE F G) (h2 : TableLE G F) :
    F = G := by
  funext k
  cases hF : F k with
  | none =>
    cases hG : G k with
    | none => rfl
    | some t => have := h2.1 k; rw [hF, hG] at this; simp at this
  | some s =>
    cases hG : G k with
    | none => have := h1.1 k; rw [hF, hG] at this; simp at this
    | some t =>
      have hs := h1.2 k
      have ht := h2.2 k
      rw [hF, hG] at hs ht
      simp only [Option.getD_some] at hs ht
      rw [Finset.Subset.antisymm hs ht]

theorem tableInsertAll_fst_none {F : SymTable} {k : String} {new : Finset String}
    (h : F k = none) : (tableInsertAll F k new).1 = F := by
  simp [tableInsertAll, h]

theorem tableInsertAll_fst_some {F : SymTable} {k : String} {new old : Finset String}
    (h : F k = some old) :
    (tableInsertAll F k new).1 = fun x => if x = k then some (old ∪ new) else F x := by
  simp [tableInsertAll, h]

theorem tableInsertAll_subset_eq {F : SymTable} {k : String} {new old : Finset String}
    (h : F k = some old) (hsub : new ⊆ old) : (tableInsertAll F k new).1 = F := by
  rw [tableInsertAll_fst_some h]
  funext x
  split
  · rename_i hx; subst hx; rw [Finset.union_eq_left.mpr hsub, h]
  · rfl

theorem tableInsertAll_snd_subset {F : SymTable} {k : String} {new old : Finset String}
    (h : F k = some old) (hflag : (tableInsertAll F k new).2 = false) : new ⊆ old := by
  simp [tableInsertAll, h] at hflag
  exact hflag

theorem tableInsertAll_le (F : SymTable) (k : String) (new : Finset String) :
    TableLE F (tableInsertAll F k new).1 := by
  cases h : F k with
  | none => rw [tableInsertAll_fst_none h]; exact TableLE.rfl F
  | some old =>
    rw [tableInsertAll_fst_some h]
    constructor
    · intro x
      by_cases hx : x = k
      · subst hx; simp [h]
      · simp [hx]
    · intro x
      by_cases hx : x = k
      · subst hx; simp [h]
      · simp [hx]

theorem firstStep_fst (F : SymTable) (b : Bool) (p : Production) :
    (firstStep (F, b) p).1 = (tableInsertAll F p.non_terminal (prodContrib F p)).1 := by
  unfold firstStep prodContrib compute_first_of_string
  split <;> rfl

theorem firstStep_snd (F : SymTable) (b : Bool) (p : Production) :
    (firstStep (F, b) p).2 =
      (b || (tableInsertAll F p.non_terminal (prodContrib F p)).2) := by
  unfold firstStep prodContrib compute_first_of_string
  split <;> rfl

theorem firstStep_le (F : SymTable) (b : Bool) (p : Production) :
    TableLE F (firstStep (F, b) p).1 := by
  rw [firstStep_fst]
  exact tableInsertAll_le F p.non_terminal (prodContrib F p)

theorem foldl_firstStep_le (l : List Production) :
    ∀ (F : SymTable) (b : Bool), TableLE F (l.foldl firstStep (F, b)).1 := by
  induction l with
  | nil => intro F b; exact TableLE.rfl F
  | cons p t ih =>
    intro F b
    rw [List.foldl_cons]
    exact (firstStep_le F b p).trans
      (ih (firstStep (F, b) p).1 (firstStep (F, b) p).2)

theorem firstIter_le (g : Grammar) :
    ∀ (fuel : Nat) (F : SymTable), TableLE F (firstIter g fuel F) := by
  intro fuel
  induction fuel with
  | zero => intro F; exact TableLE.rfl F
  | succ n ih =>
    intro F
    unfold firstIter
    split
    · exact (foldl_firstStep_le g.productions F false).trans (ih _)
    · exact foldl_firstStep_le g.productions F false

theorem foldl_firstStep_eps (l : List Production) (p : Production)
    (hp : p ∈ l) (hhead : p.derivation.head? = some "ε") :
    ∀ (F : SymTable) (b : Bool), (F p.non_terminal).isSome →
      "ε" ∈ ((l.foldl firstStep (F, b)).1 p.non_terminal).getD ∅ := by
  induction l with
  | nil => cases hp
  | cons q t ih =>
    intro F b hsome
    rw [List.foldl_cons]
    rcases List.mem_cons.1 hp with rfl | hp'
    · have hstep : "ε" ∈ ((firstStep (F, b) p).1 p.non_terminal).getD ∅ := by
        rw [firstStep_fst]
        cases h : F p.non_terminal with
        | none => rw [h] at hsome; simp at hsome
        | some old =>
          rw [tableInsertAll_fst_some h]
          simp [prodContrib, hhead]
      exact (foldl_firstStep_le t (firstStep (F, b) p).1 (firstStep (F, b) p).2).2 _
        hstep
    · have hle := firstStep_le F b q
      have hsome' : ((firstStep (F, b) q).1 p.non_terminal).isSome := by
        rw [← hle.1 p.non_terminal]; exact hsome
      exact ih hp' _ _ hsome'

/-- Claim C5, amended: a production contributes `ε` directly (skipping its
nullable scan) whenever the first symbol of its right-hand side is `ε`,
whatever the remaining symbols are; consequently `ε` always ends up in the
computed `FIRST` of its left-hand side. -/
theorem C5_amended (g : Grammar) (p : Production) (hp : p ∈ g.productions)
    (hhead : p.derivation.head? = some "ε")
    (hnt : p.non_terminal ∈ g.non_terminals) :
    "ε" ∈ (g.compute_first_sets p.non_terminal).getD ∅ := by
  have hsome : ((firstInit g) p.non_terminal).isSome := by simp [firstInit, hnt]
  have hpass := foldl_firstStep_eps g.productions p hp hhead (firstInit g) false hsome
  show "ε" ∈ ((firstIter g (firstFuel g) (firstInit g)) p.non_terminal).getD ∅
  rw [show firstFuel g =
    ((g.terminals ∪ g.non_terminals).card * (g.terminals.card + 1)) + 1 from rfl]
  unfold firstIter
  split
  · exact (firstIter_le g _ _).2 _ hpass
  · exact hpass

/-- Claim C5, witness for the amended theorem: `A → ε a` puts `ε` into
`FIRST(A)`. -/
theorem C5_witness :
    (⟨"A", ["ε", "a"]⟩ ∈ gC5.productions ∧ "A" ∈ gC5.non_terminals) ∧
    "ε" ∈ (gC5.compute_first_sets "A").getD ∅ :=
  ⟨⟨by decide, by decide⟩,
    C5_amended gC5 ⟨"A", ["ε", "a"]⟩ (by decide) (by decide) (by decide)⟩

theorem buildStep_snd_mono {F FL : SymTable} (acc : TableMap × Bool)
    (p : Production) (h : acc.2 = true) : (buildStep F FL acc p).2 = true := by
  simp only [buildStep, h]
  split <;> simp

theorem buildStep_keeps {F FL : SymTable} (acc : TableMap × Bool) (p : Production)
    (key : String × String) (h : acc.1 key ≠ none) :
    (buildStep F FL acc p).1 key ≠ none := by
  simp only [buildStep]
  split
  · dsimp only
    split
    · simp
    · split
      · simp
      · exact h
  · dsimp only
    split
    · simp
    · exact h

theorem buildStep_writes_first {F FL : SymTable} (acc : TableMap × Bool)
    (p : Production) (t : String)
    (ht : t ∈ compute_first_of_string F p.derivation) (hne : t ≠ "ε") :
    (buildStep F FL acc p).1 (p.non_terminal, t) ≠ none := by
  simp only [buildStep]
  split
  · dsimp only
    split
    · simp
    · rw [if_pos ⟨rfl, Finset.mem_erase.2 ⟨hne, ht⟩⟩]
      simp
  · dsimp only
    rw [if_pos ⟨rfl, Finset.mem_erase.2 ⟨hne, ht⟩⟩]
    simp

theorem buildStep_snd_of_first {F FL : SymTable} (acc : TableMap × Bool)
    (p : Production) (t : String)
    (ht : t ∈ compute_first_of_string F p.derivation) (hne : t ≠ "ε")
    (hocc : acc.1 (p.non_terminal, t) ≠ none) :
    (buildStep F FL acc p).2 = true := by
  have hc1 : (acc.2 || decide (∃ t ∈ (compute_first_of_string F p.derivation).erase "ε",
      acc.1 (p.non_terminal, t) ≠ none)) = true := by
    simp only [Bool.or_eq_true, decide_eq_true_eq]
    exact Or.inr ⟨t, Finset.mem_erase.2 ⟨hne, ht⟩, hocc⟩
  simp only [buildStep]
  split
  · dsimp only
    rw [hc1]
    simp
  · dsimp only
    exact hc1

theorem foldl_buildStep_snd_mono {F FL : SymTable} (l : List Production) :
    ∀ (acc : TableMap × Bool), acc.2 = true →
      (l.foldl (buildStep F FL) acc).2 = true := by
  induction l with
  | nil => intro acc h; exact h
  | cons p t ih =>
    intro acc h
    rw [List.foldl_cons]
    exact ih _ (buildStep_snd_mono acc p h)

theorem foldl_buildStep_keeps {F FL : SymTable} (l : List Production)
    (key : String × String) :
    ∀ (acc : TableMap × Bool), acc.1 key ≠ none →
      (l.foldl (buildStep F FL) acc).1 key ≠ none := by
  induction l with
  | nil => intro acc h; exact h
  | cons p t ih =>
    intro acc h
    rw [List.foldl_cons]
    exact ih _ (buildStep_keeps acc p key h)

/-- Claim C3, amended: a conflict is recorded at a cell whenever that cell is
already occupied — whether or not the occupant is a different right-hand side
— so a production occurring twice in the list whose FIRST-of-rhs holds a
non-`ε` terminal always makes construction fail with the conflict error. -/
theorem C3_amended (g : Grammar) (p : Production) (l1 l2 l3 : List Production)
    (hsplit : g.productions = l1 ++ p :: (l2 ++ p :: l3)) (t : String)
    (ht : t ∈ compute_first_of_string g.compute_first_sets p.derivation)
    (hne : t ≠ "ε") :
    ParsingTable.build g = .error "Grammar is not LL(1) - parsing table has conflicts" := by
  unfold ParsingTable.build
  rw [hsplit]
  have hflag : ∀ (acc : TableMap × Bool),
      ((l1 ++ p :: (l2 ++ p :: l3)).foldl
        (buildStep g.compute_first_sets
          (g.compute_follow_sets g.compute_first_sets)) acc).2 = true := by
    intro acc
    rw [List.foldl_append, List.foldl_cons, List.foldl_append, List.foldl_cons]
    apply foldl_buildStep_snd_mono
    apply buildStep_snd_of_first _ p t ht hne
    apply foldl_buildStep_keeps
    exact buildStep_writes_first _ p t ht hne
  rw [if_pos (hflag _)]

/-- Claim C3, witness for the amended theorem: the duplicated `S → a`. -/
theorem C3_witness :
    (gDup.productions = [] ++ ⟨"S", ["a"]⟩ :: ([] ++ ⟨"S", ["a"]⟩ :: []) ∧
      "a" ∈ compute_first_of_string gDup.compute_first_sets ["a"]) ∧
    ParsingTable.build gDup = .error "Grammar is not LL(1) - parsing table has conflicts" :=
  ⟨⟨by decide, by decide⟩,
    C3_amended gDup ⟨"S", ["a"]⟩ [] [] [] (by decide) "a" (by decide) (by decide)⟩

theorem firstScan_mono {F G : SymTable} (h : TableLE F G) :
    ∀ l : List String, (firstScan F l).1 ⊆ (firstScan G l).1 ∧
      ((firstScan F l).2 = true → (firstScan G l).2 = true) := by
  intro l
  induction l with
  | nil => exact ⟨Finset.Subset.refl _, fun _ => rfl⟩
  | cons x xs ih =>
    have hdom := h.1 x
    have hsub := h.2 x
    cases hF : F x with
    | none =>
      cases hG : G x with
      | none => simpa [firstScan, hF, hG] using ih
      | some t => rw [hF, hG] at hdom; simp at hdom
    | some s =>
      cases hG : G x with
      | none => rw [hF, hG] at hdom; simp at hdom
      | some t =>
        rw [hF, hG] at hsub
        simp only [Option.getD_some] at hsub
        simp only [firstScan, hF, hG]
        by_cases hεs : "ε" ∈ s
        · have hεt : "ε" ∈ t := hsub hεs
          simp only [hεs, hεt, if_true]
          constructor
          · exact Finset.union_subset_union (Finset.erase_subset_erase _ hsub) ih.1
          · exact ih.2
        · simp only [hεs, if_false]
          by_cases hεt : "ε" ∈ t
          · simp only [hεt, if_true]
            constructor
            · exact (Finset.erase_subset_erase _ hsub).trans
                Finset.subset_union_left
            · intro hc; cases hc
          · simp only [hεt, if_false]
            exact ⟨Finset.erase_subset_erase _ hsub, fun hc => hc⟩

theorem compute_first_of_string_mono {F G : SymTable} (h : TableLE F G)
    (l : List String) : compute_first_of_string F l ⊆ compute_first_of_string G l := by
  unfold compute_first_of_string
  have hm := firstScan_mono h l
  by_cases h2 : (firstScan F l).2 = true
  · rw [h2, hm.2 h2]
    simp only [if_true]
    exact Finset.insert_subset_insert _ hm.1
  · rw [Bool.not_eq_true] at h2
    rw [h2]
    simp only [Bool.false_eq_true, if_false]
    by_cases h3 : (firstScan G l).2 = true
    · rw [h3]
      simp only [if_true]
      exact hm.1.trans (Finset.subset_insert _ _)
    · rw [Bool.not_eq_true] at h3
      rw [h3]
      simpa using hm.1

theorem prodContrib_mono {F G : SymTable} (h : TableLE F G) (p : Production) :
    prodContrib F p ⊆ prodContrib G p := by
  unfold prodContrib
  split
  · exact Finset.Subset.refl _
  · exact compute_first_of_string_mono h p.derivation

theorem firstStep_le_closed {F G : SymTable} (b : Bool) (p : Production)
    (hle : TableLE F G)
    (hcl : ∀ old, G p.non_terminal = some old → prodContrib G p ⊆ old) :
    TableLE (firstStep (F, b) p).1 G := by
  rw [firstStep_fst]
  cases hF : F p.non_terminal with
  | none => rw [tableInsertAll_fst_none hF]; exact hle
  | some old =>
    rw [tableInsertAll_fst_some hF]
    have hdom := hle.1 p.non_terminal
    rw [hF] at hdom
    cases hG : G p.non_terminal with
    | none => rw [hG] at hdom; simp at hdom
    | some oldG =>
      constructor
      · intro x
        by_cases hx : x = p.non_terminal
        · subst hx; simp [hG]
        · simp only [hx, if_false]; exact hle.1 x
      · intro x
        by_cases hx : x = p.non_terminal
        · subst hx
          simp only [if_pos rfl, hG, Option.getD_some]
          apply Finset.union_subset
          · have := hle.2 p.non_terminal
            rw [hF, hG] at this
            simpa using this
          · exact (prodContrib_mono hle p).trans (hcl oldG hG)
        · simp only [hx, if_false]; exact hle.2 x

theorem foldl_firstStep_le_closed {G : SymTable} (l : List Production)
    (hcl : ∀ p ∈ l, ∀ old, G p.non_terminal = some old → prodContrib G p ⊆ old) :
    ∀ (F : SymTable) (b : Bool), TableLE F G →
      TableLE (l.foldl firstStep (F, b)).1 G := by
  induction l with
  | nil => intro F b hle; exact hle
  | cons p t ih =>
    intro F b hle
    rw [List.foldl_cons]
    exact ih (fun q hq => hcl q (List.mem_cons_of_mem _ hq)) _ _
      (firstStep_le_closed b p hle (hcl p (List.mem_cons_self ..)))

theorem firstIter_le_closed (g : Grammar) {G : SymTable}
    (hcl : ∀ p ∈ g.productions, ∀ old, G p.non_terminal = some old →
      prodContrib G p ⊆ old) :
    ∀ (fuel : Nat) (F : SymTable), TableLE F G →
      TableLE (firstIter g fuel F) G := by
  intro fuel
  induction fuel with
  | zero => intro F hle; exact hle
  | succ n ih =>
    intro F hle
    unfold firstIter
    split
    · exact ih _ (foldl_firstStep_le_closed g.productions hcl F false hle)
    · exact foldl_firstStep_le_closed g.productions hcl F false hle

theorem firstStep_snd_false {F : SymTable} {b : Bool} {p : Production}
    (h : (firstStep (F, b) p).2 = false) :
    b = false ∧ (firstStep (F, b) p).1 = F := by
  rw [firstStep_snd] at h
  rcases Bool.or_eq_false_iff.1 h with ⟨hb, hflag⟩
  refine ⟨hb, ?_⟩
  rw [firstStep_fst]
  cases hF : F p.non_terminal with
  | none => exact tableInsertAll_fst_none hF
  | some old => exact tableInsertAll_subset_eq hF (tableInsertAll_snd_subset hF hflag)

theorem foldl_firstStep_snd_false (l : List Production) :
    ∀ (F : SymTable) (b : Bool), (l.foldl firstStep (F, b)).2 = false →
      b = false ∧ (l.foldl firstStep (F, b)).1 = F ∧
      (∀ p ∈ l, ∀ old, F p.non_terminal = some old → prodContrib F p ⊆ old) := by
  induction l with
  | nil =>
    intro F b h
    exact ⟨h, rfl, fun p hp => absurd hp (List.not_mem_nil p)⟩
  | cons q t ih =>
    intro F b h
    rw [List.foldl_cons] at h ⊢
    have h' := ih (firstStep (F, b) q).1 (firstStep (F, b) q).2 h
    have hq := firstStep_snd_false h'.1
    refine ⟨hq.1, by rw [h'.2.1, hq.2], fun p hp => ?_⟩
    rcases List.mem_cons.1 hp with rfl | hp'
    · intro old hold
      have hs := firstStep_snd F b p
      rw [h'.1] at hs
      exact tableInsertAll_snd_subset hold (Bool.or_eq_false_iff.1 hs.symm).2
    · have := h'.2.2 p hp'
      rwa [hq.2] at this

theorem firstPass_unchanged (g : Grammar) (F : SymTable)
    (h : (firstPass g F).2 = false) :
    (firstPass g F).1 = F ∧
    (∀ p ∈ g.productions, ∀ old, F p.non_terminal = some old →
      prodContrib F p ⊆ old) :=
  ⟨(foldl_firstStep_snd_false g.productions F false h).2.1,
    (foldl_firstStep_snd_false g.productions F false h).2.2⟩

theorem firstMeasure_mono (g : Grammar) {F G : SymTable} (h : TableLE F G) :
    firstMeasure g F ≤ firstMeasure g G :=
  Finset.sum_le_sum fun k _ => Finset.card_le_card (h.2 k)

theorem firstMeasure_lt (g : Grammar) {F G : SymTable} (h : TableLE F G)
    (k : String) (hk : k ∈ g.terminals ∪ g.non_terminals)
    (hlt : (F k).getD ∅ ⊂ (G k).getD ∅) :
    firstMeasure g F < firstMeasure g G :=
  Finset.sum_lt_sum (fun i _ => Finset.card_le_card (h.2 i))
    ⟨k, hk, Finset.card_lt_card hlt⟩

theorem foldl_firstStep_changed (l : List Production) :
    ∀ F : SymTable, (l.foldl firstStep (F, false)).2 = true →
      ∃ k, (F k).isSome ∧
        (F k).getD ∅ ⊂ ((l.foldl firstStep (F, false)).1 k).getD ∅ := by
  induction l with
  | nil => intro F h; simp at h
  | cons q t ih =>
    intro F h
    rw [List.foldl_cons] at h ⊢
    by_cases hq : (firstStep (F, false) q).2 = true
    · have hflag : (tableInsertAll F q.non_terminal (prodContrib F q)).2 = true := by
        have hs := firstStep_snd F false q
        rw [hq] at hs
        simpa using hs.symm
      cases hF : F q.non_terminal with
      | none => rw [tableInsertAll, hF] at hflag; simp at hflag
      | some old =>
        have hnsub : ¬ prodContrib F q ⊆ old := by
          rw [tableInsertAll, hF] at hflag
          simpa using hflag
        refine ⟨q.non_terminal, by simp [hF], ?_⟩
        have hstep : ((firstStep (F, false) q).1 q.non_terminal).getD ∅ =
            old ∪ prodContrib F q := by
          rw [firstStep_fst, tableInsertAll_fst_some hF]
          simp
        have hgrow := (foldl_firstStep_le t (firstStep (F, false) q).1
          (firstStep (F, false) q).2).2 q.non_terminal
        rw [hstep] at hgrow
        rw [hF]
        refine Finset.ssubset_of_ssubset_of_subset ?_ hgrow
        simp only [Option.getD_some]
        exact Finset.ssubset_iff_subset_ne.2 ⟨Finset.subset_union_left,
          fun hc => hnsub (by rw [← Finset.union_eq_left, hc.symm])⟩
    · rw [Bool.not_eq_true] at hq
      have hmap := (firstStep_snd_false hq).2
      have hpair : firstStep (F, false) q = (F, false) := Prod.ext hmap hq
      rw [hpair] at h ⊢
      exact ih F h

theorem erase_subset_of_subset_insert {s t : Finset String} {a : String}
    (h : s ⊆ insert a t) : s.erase a ⊆ t := by
  intro x hx
  rcases Finset.mem_insert.1 (h (Finset.mem_of_mem_erase hx)) with rfl | h2
  · exact absurd rfl (Finset.ne_of_mem_erase hx)
  · exact h2

theorem firstScan_vals {g : Grammar} {F : SymTable} (hv : FirstValInv g F) :
    ∀ l, (firstScan F l).1 ⊆ g.terminals := by
  intro l
  induction l with
  | nil => simp [firstScan]
  | cons x xs ih =>
    cases hF : F x with
    | none => simpa [firstScan, hF] using ih
    | some s =>
      have hs : s ⊆ insert "ε" g.terminals := by
        have := hv x; rwa [hF] at this
      have hse : s.erase "ε" ⊆ g.terminals := erase_subset_of_subset_insert hs
      simp only [firstScan, hF]
      split
      · exact Finset.union_subset hse ih
      · exact hse

theorem prodContrib_vals {g : Grammar} {F : SymTable} (hv : FirstValInv g F)
    (p : Production) : prodContrib F p ⊆ insert "ε" g.terminals := by
  unfold prodContrib
  split
  · simp
  · unfold compute_first_of_string
    split
    · exact Finset.insert_subset_insert _ (firstScan_vals hv _)
    · exact (firstScan_vals hv _).trans (Finset.subset_insert _ _)

theorem firstStep_vals {g : Grammar} {F : SymTable} (hv : FirstValInv g F)
    (b : Bool) (p : Production) : FirstValInv g (firstStep (F, b) p).1 := by
  rw [firstStep_fst]
  cases hF : F p.non_terminal with
  | none => rw [tableInsertAll_fst_none hF]; exact hv
  | some old =>
    rw [tableInsertAll_fst_some hF]
    intro k
    by_cases hk : k = p.non_terminal
    · subst hk
      simp only [if_pos rfl, Option.getD_some]
      refine Finset.union_subset ?_ (prodContrib_vals hv p)
      have h2 := hv p.non_terminal
      rw [hF] at h2
      simpa using h2
    · simp only [hk, if_false]
      exact hv k

theorem foldl_firstStep_vals {g : Grammar} (l : List Production) :
    ∀ (F : SymTable) (b : Bool), FirstValInv g F →
      FirstValInv g (l.foldl firstStep (F, b)).1 := by
  induction l with
  | nil => intro F b hv; exact hv
  | cons q t ih =>
    intro F b hv
    rw [List.foldl_cons]
    exact ih _ _ (firstStep_vals hv b q)

theorem FirstDomInv_of_le {g : Grammar} {F G : SymTable} (hd : FirstDomInv g F)
    (hle : TableLE F G) : FirstDomInv g G := fun k => by
  rw [← hle.1 k]; exact hd k

theorem firstMeasure_le_bound (g : Grammar) (F : SymTable) (hv : FirstValInv g F) :
    firstMeasure g F ≤
      (g.terminals ∪ g.non_terminals).card * (g.terminals.card + 1) := by
  unfold firstMeasure
  calc ∑ k ∈ (g.terminals ∪ g.non_terminals), ((F k).getD ∅).card
      ≤ ∑ _k ∈ (g.terminals ∪ g.non_terminals), (g.terminals.card + 1) := by
        refine Finset.sum_le_sum fun k _ => ?_
        calc ((F k).getD ∅).card ≤ (insert "ε" g.terminals).card :=
              Finset.card_le_card (hv k)
          _ ≤ g.terminals.card + 1 := Finset.card_insert_le _ _
    _ = (g.terminals ∪ g.non_terminals).card * (g.terminals.card + 1) := by
        rw [Finset.sum_const, smul_eq_mul]

theorem firstIter_stable (g : Grammar) :
    ∀ (fuel : Nat) (F : SymTable), FirstDomInv g F → FirstValInv g F →
      (g.terminals ∪ g.non_terminals).card * (g.terminals.card + 1) <
        firstMeasure g F + fuel →
      (firstPass g (firstIter g fuel F)).2 = false := by
  intro fuel
  induction fuel with
  | zero =>
    intro F _ hv hlt
    exact absurd (firstMeasure_le_bound g F hv) (by omega)
  | succ n ih =>
    intro F hd hv hlt
    unfold firstIter
    split
    · rename_i hch
      have hle := foldl_firstStep_le g.productions F false
      obtain ⟨k, hks, hklt⟩ := foldl_firstStep_changed g.productions F hch
      have hkmem : k ∈ g.terminals ∪ g.non_terminals := (hd k).1 hks
      have hmlt : firstMeasure g F < firstMeasure g (firstPass g F).1 :=
        firstMeasure_lt g hle k hkmem hklt
      exact ih _ (FirstDomInv_of_le hd hle) (foldl_firstStep_vals g.productions F false hv)
        (by omega)
    · rename_i hch
      rw [Bool.not_eq_true] at hch
      rw [(firstPass_unchanged g F hch).1]
      exact hch

theorem firstInit_dom (g : Grammar) : FirstDomInv g (firstInit g) := by
  intro k
  unfold firstInit
  by_cases hn : k ∈ g.non_terminals
  · simp [hn]
  · by_cases ht : k ∈ g.terminals
    · simp [hn, ht]
    · simp [hn, ht]

theorem firstInit_vals (g : Grammar) : FirstValInv g (firstInit g) := by
  intro k
  unfold firstInit
  by_cases hn : k ∈ g.non_terminals
  · simp [hn]
  · by_cases ht : k ∈ g.terminals
    · simp only [hn, if_false, ht, if_true, Option.getD_some]
      intro x hx
      rw [Finset.mem_singleton.1 hx]
      exact Finset.mem_insert_of_mem ht
    · simp [hn, ht]

theorem compute_first_sets_stable (g : Grammar) :
    (firstPass g g.compute_first_sets).2 = false := by
  apply firstIter_stable g (firstFuel g) (firstInit g) (firstInit_dom g)
    (firstInit_vals g)
  unfold firstFuel
  omega

theorem compute_first_sets_closed (g : Grammar) :
    ∀ p ∈ g.productions, ∀ old, g.compute_first_sets p.non_terminal = some old →
      prodContrib g.compute_first_sets p ⊆ old :=
  (firstPass_unchanged g g.compute_first_sets (compute_first_sets_stable g)).2

theorem compute_first_sets_dom (g : Grammar) : FirstDomInv g g.compute_first_sets :=
  FirstDomInv_of_le (firstInit_dom g) (firstIter_le g (firstFuel g) (firstInit g))

theorem firstIter_vals {g : Grammar} :
    ∀ (fuel : Nat) (F : SymTable), FirstValInv g F →
      FirstValInv g (firstIter g fuel F) := by
  intro fuel
  induction fuel with
  | zero => intro F hv; exact hv
  | succ n ih =>
    intro F hv
    unfold firstIter
    split
    · exact ih _ (foldl_firstStep_vals g.productions F false hv)
    · exact foldl_firstStep_vals g.productions F false hv

theorem compute_first_sets_vals (g : Grammar) : FirstValInv g g.compute_first_sets :=
  firstIter_vals (firstFuel g) (firstInit g) (firstInit_vals g)

theorem compute_first_sets_perm (g : Grammar) (l' : List Production)
    (hperm : g.productions.Perm l') :
    Grammar.compute_first_sets {g with productions := l'} = g.compute_first_sets := by
  apply TableLE.ext
  · -- the permuted run's table is below the original's
    apply firstIter_le_closed {g with productions := l'}
      (G := g.compute_first_sets)
    · intro p hp
      exact compute_first_sets_closed g p (hperm.mem_iff.2 hp)
    · exact firstIter_le g (firstFuel g) (firstInit g)
  · -- and conversely
    apply firstIter_le_closed g
      (G := Grammar.compute_first_sets {g with productions := l'})
    · intro p hp
      exact compute_first_sets_closed {g with productions := l'} p
        (hperm.mem_iff.1 hp)
    · exact firstIter_le {g with productions := l'}
        (firstFuel {g with productions := l'}) (firstInit {g with productions := l'})

theorem any_congr_perm {α : Type} {l l' : List α} (h : l.Perm l') (f : α → Bool) :
    l.any f = l'.any f := by
  cases hb : l'.any f
  · rw [Bool.eq_false_iff]
    intro hc
    obtain ⟨x, hx, hfx⟩ := List.any_eq_true.1 hc
    rw [List.any_eq_false] at hb
    exact absurd hfx (by simp [hb x (h.mem_iff.1 hx)])
  · rw [List.any_eq_true]
    obtain ⟨x, hx, hfx⟩ := List.any_eq_true.1 hb
    exact ⟨x, h.mem_iff.2 hx, hfx⟩

theorem followUpdates_perm (g : Grammar) (l' : List Production)
    (hperm : g.productions.Perm l') (F FL : SymTable) :
    (followUpdates g F FL).Perm
      (followUpdates {g with productions := l'} F FL) := by
  unfold followUpdates
  exact hperm.flatMap_right _

theorem followApply_congr_perm {FL : SymTable}
    {ups ups' : List (String × Finset String)} (h : ups.Perm ups') :
    followApply FL ups = followApply FL ups' := by
  funext k
  unfold followApply
  cases hk : FL k with
  | none => rfl
  | some old =>
    show some (ups.foldl (fun a u => if u.1 = k then a ∪ u.2 else a) old) =
      some (ups'.foldl (fun a u => if u.1 = k then a ∪ u.2 else a) old)
    congr 1
    refine h.foldl_eq' (fun x _ y _ z => ?_) old
    by_cases h1 : x.1 = k <;> by_cases h2 : y.1 = k <;>
      simp [h1, h2, Finset.union_right_comm, Finset.union_comm x.2 y.2]

theorem followPass_perm (g : Grammar) (l' : List Production)
    (hperm : g.productions.Perm l') (F FL : SymTable) :
    followPass {g with productions := l'} F FL = followPass g F FL := by
  have hups := followUpdates_perm g l' hperm F FL
  unfold followPass
  rw [followApply_congr_perm hups.symm, any_congr_perm hups.symm]

theorem followIter_succ (g : Grammar) (F : SymTable) (n : Nat) (FL : SymTable) :
    followIter g F (n + 1) FL =
      if (followPass g F FL).2 then followIter g F n (followPass g F FL).1
      else (followPass g F FL).1 := rfl

theorem followIter_perm (g : Grammar) (l' : List Production)
    (hperm : g.productions.Perm l') (F : SymTable) :
    ∀ (fuel : Nat) (FL : SymTable),
      followIter {g with productions := l'} F fuel FL = followIter g F fuel FL := by
  intro fuel
  induction fuel with
  | zero => intro FL; rfl
  | succ n ih =>
    intro FL
    rw [followIter_succ, followIter_succ, followPass_perm g l' hperm F FL]
    split
    · exact ih _
    · rfl

theorem followUniverse_perm (g : Grammar) (l' : List Production)
    (hperm : g.productions.Perm l') (F : SymTable) :
    followUniverse {g with productions := l'} F = followUniverse g F := by
  unfold followUniverse
  congr 1
  refine (hperm.foldl_eq' (fun x _ y _ z => ?_) ∅).symm
  rw [Finset.union_right_comm]

theorem compute_follow_sets_perm (g : Grammar) (l' : List Production)
    (hperm : g.productions.Perm l') (F : SymTable) :
    Grammar.compute_follow_sets {g with productions := l'} F =
      g.compute_follow_sets F := by
  show followIter {g with productions := l'} F
    (followFuel {g with productions := l'} F) (followInit {g with productions := l'}) = _
  rw [show followFuel {g with productions := l'} F = followFuel g F by
    unfold followFuel; rw [followUniverse_perm g l' hperm F]]
  exact followIter_perm g l' hperm F (followFuel g F) (followInit g)

/-- Claim C4: the FIRST and FOLLOW fixed points are order-independent — for
every grammar and every permutation of its production list, both
`compute_first_sets` and `compute_follow_sets` (the latter for any given
FIRST table, and in particular for the permuted grammar's own FIRST table)
return the same final tables as for the unpermuted list. -/
theorem C4_order_independence (g : Grammar) (l' : List Production)
    (hperm : g.productions.Perm l') :
    Grammar.compute_first_sets {g with productions := l'} = g.compute_first_sets ∧
    (∀ F : SymTable,
      Grammar.compute_follow_sets {g with productions := l'} F =
        g.compute_follow_sets F) ∧
    Grammar.compute_follow_sets {g with productions := l'}
        (Grammar.compute_first_sets {g with productions := l'}) =
      g.compute_follow_sets g.compute_first_sets := by
  refine ⟨compute_first_sets_perm g l' hperm,
    fun F => compute_follow_sets_perm g l' hperm F, ?_⟩
  rw [compute_first_sets_perm g l' hperm,
    compute_follow_sets_perm g l' hperm g.compute_first_sets]

/-- Claim C4, witness: reversing Scenario A's production list leaves
`FIRST(A)` and `FOLLOW(A)` unchanged. -/
theorem C4_witness :
    gA.productions.Perm gA.productions.reverse ∧
    Grammar.compute_first_sets {gA with productions := gA.productions.reverse} "A" =
      gA.compute_first_sets "A" ∧
    Grammar.compute_follow_sets {gA with productions := gA.productions.reverse}
        (Grammar.compute_first_sets {gA with productions := gA.productions.reverse}) "A" =
      gA.compute_follow_sets gA.compute_first_sets "A" :=
  ⟨by decide,
    congrFun (C4_order_independence gA gA.productions.reverse (by decide)).1 "A",
    congrFun (C4_order_independence gA gA.productions.reverse (by decide)).2.2 "A"⟩

theorem foldl_cond_union_mono (k : String) (l : List (String × Finset String)) :
    ∀ acc : Finset String,
      acc ⊆ l.foldl (fun a u => if u.1 = k then a ∪ u.2 else a) acc := by
  induction l with
  | nil => intro acc; exact Finset.Subset.refl acc
  | cons u t ih =>
    intro acc
    rw [List.foldl_cons]
    refine Finset.Subset.trans ?_ (ih _)
    split
    · exact Finset.subset_union_left
    · exact Finset.Subset.refl acc

theorem foldl_cond_union_absorb (k : String) (l : List (String × Finset String))
    (u : String × Finset String) (hu : u ∈ l) (hk : u.1 = k) :
    ∀ acc : Finset String,
      u.2 ⊆ l.foldl (fun a v => if v.1 = k then a ∪ v.2 else a) acc := by
  induction l with
  | nil => cases hu
  | cons v t ih =>
    intro acc
    rw [List.foldl_cons]
    rcases List.mem_cons.1 hu with rfl | hu'
    · rw [if_pos hk]
      exact (Finset.subset_union_right).trans (foldl_cond_union_mono k t _)
    · exact ih hu' _

theorem foldl_cond_union_subset (k : String) (l : List (String × Finset String))
    (S : Finset String) (hl : ∀ u ∈ l, u.1 = k → u.2 ⊆ S) :
    ∀ acc : Finset String, acc ⊆ S →
      l.foldl (fun a u => if u.1 = k then a ∪ u.2 else a) acc ⊆ S := by
  induction l with
  | nil => intro acc hacc; exact hacc
  | cons u t ih =>
    intro acc hacc
    rw [List.foldl_cons]
    refine ih (fun v hv => hl v (List.mem_cons_of_mem _ hv)) _ ?_
    split
    · exact Finset.union_subset hacc (hl u (List.mem_cons_self ..) (by assumption))
    · exact hacc

theorem foldl_cond_union_mem (k : String) (l : List (String × Finset String))
    (x : String) :
    ∀ acc : Finset String,
      x ∈ l.foldl (fun a u => if u.1 = k then a ∪ u.2 else a) acc →
      x ∈ acc ∨ ∃ u ∈ l, u.1 = k ∧ x ∈ u.2 := by
  induction l with
  | nil => intro acc h; exact Or.inl h
  | cons u t ih =>
    intro acc h
    rw [List.foldl_cons] at h
    rcases ih _ h with hin | ⟨v, hv, hvk, hvx⟩
    · by_cases hk : u.1 = k
      · rw [if_pos hk] at hin
        rcases Finset.mem_union.1 hin with h1 | h2
        · exact Or.inl h1
        · exact Or.inr ⟨u, List.mem_cons_self .., hk, h2⟩
      · rw [if_neg hk] at hin
        exact Or.inl hin
    · exact Or.inr ⟨v, List.mem_cons_of_mem _ hv, hvk, hvx⟩

theorem followApply_le (FL : SymTable) (ups : List (String × Finset String)) :
    TableLE FL (followApply FL ups) := by
  constructor
  · intro k
    unfold followApply
    cases hk : FL k <;> rfl
  · intro k
    unfold followApply
    cases hk : FL k with
    | none => simp
    | some old => simpa using foldl_cond_union_mono k ups old

theorem followPass_unchanged (g : Grammar) (F FL : SymTable)
    (h : (followPass g F FL).2 = false) :
    (followPass g F FL).1 = FL ∧
    (∀ u ∈ followUpdates g F FL, ∀ old, FL u.1 = some old → u.2 ⊆ old) := by
  have hfacts : ∀ u ∈ followUpdates g F FL, ∀ old, FL u.1 = some old →
      u.2 ⊆ old := by
    intro u hu old hold
    have := List.any_eq_false.1 h u hu
    rw [hold] at this
    simpa using this
  refine ⟨?_, hfacts⟩
  funext k
  show followApply FL (followUpdates g F FL) k = FL k
  unfold followApply
  cases hk : FL k with
  | none => rfl
  | some old =>
    show some (List.foldl (fun a u => if u.1 = k then a ∪ u.2 else a) old
      (followUpdates g F FL)) = some old
    congr 1
    refine Finset.Subset.antisymm ?_ (foldl_cond_union_mono k _ old)
    refine foldl_cond_union_subset k _ old
      (fun u hu huk => hfacts u hu old (by rw [huk, hk])) old (Finset.Subset.refl old)

theorem followPass_changed (g : Grammar) (F FL : SymTable)
    (h : (followPass g F FL).2 = true) :
    ∃ k, (FL k).isSome ∧ (FL k).getD ∅ ⊂ ((followPass g F FL).1 k).getD ∅ := by
  obtain ⟨u, hu, hflag⟩ := List.any_eq_true.1 h
  cases hold : FL u.1 with
  | none => rw [hold] at hflag; simp at hflag
  | some old =>
    rw [hold] at hflag
    have hnsub : ¬ u.2 ⊆ old := by simpa using hflag
    refine ⟨u.1, by simp [hold], ?_⟩
    rw [hold]
    show old ⊂ ((followApply FL (followUpdates g F FL)) u.1).getD ∅
    unfold followApply
    rw [hold]
    simp only [Option.getD_some]
    refine Finset.ssubset_iff_subset_ne.2 ⟨foldl_cond_union_mono u.1 _ old, fun hc => ?_⟩
    exact hnsub (hc ▸ foldl_cond_union_absorb u.1 _ u hu rfl old)

theorem followIter_le (g : Grammar) (F : SymTable) :
    ∀ (fuel : Nat) (FL : SymTable), TableLE FL (followIter g F fuel FL) := by
  intro fuel
  induction fuel with
  | zero => intro FL; exact TableLE.rfl FL
  | succ n ih =>
    intro FL
    rw [followIter_succ]
    split
    · exact (followApply_le FL _).trans (ih _)
    · exact followApply_le FL _

theorem followMeasure_mono (g : Grammar) {FL FL' : SymTable} (h : TableLE FL FL') :
    followMeasure g FL ≤ followMeasure g FL' :=
  Finset.sum_le_sum fun k _ => Finset.card_le_card (h.2 k)

theorem followMeasure_lt (g : Grammar) {FL FL' : SymTable} (h : TableLE FL FL')
    (k : String) (hk : k ∈ g.non_terminals)
    (hlt : (FL k).getD ∅ ⊂ (FL' k).getD ∅) :
    followMeasure g FL < followMeasure g FL' :=
  Finset.sum_lt_sum (fun i _ => Finset.card_le_card (h.2 i))
    ⟨k, hk, Finset.card_lt_card hlt⟩

theorem foldl_union_mono {α : Type} (h : α → Finset String) (l : List α) :
    ∀ acc : Finset String, acc ⊆ l.foldl (fun a s => a ∪ h s) acc := by
  induction l with
  | nil => intro acc; exact Finset.Subset.refl acc
  | cons x t ih =>
    intro acc
    rw [List.foldl_cons]
    exact Finset.Subset.trans Finset.subset_union_left (ih _)

theorem foldl_union_absorb {α : Type} (h : α → Finset String) (l : List α)
    (x : α) (hx : x ∈ l) :
    ∀ acc : Finset String, h x ⊆ l.foldl (fun a s => a ∪ h s) acc := by
  induction l with
  | nil => cases hx
  | cons y t ih =>
    intro acc
    rw [List.foldl_cons]
    rcases List.mem_cons.1 hx with rfl | hx'
    · exact (Finset.subset_union_right).trans (foldl_union_mono h t _)
    · exact ih hx' _

theorem firstScan_mem {F : SymTable} {t : String} :
    ∀ l : List String, t ∈ (firstScan F l).1 →
      ∃ x ∈ l, ∃ s, F x = some s ∧ t ∈ s ∧ t ≠ "ε" := by
  intro l
  induction l with
  | nil => intro h; simp [firstScan] at h
  | cons x xs ih =>
    intro h
    cases hF : F x with
    | none =>
      simp only [firstScan, hF] at h
      obtain ⟨y, hy, hs⟩ := ih h
      exact ⟨y, List.mem_cons_of_mem _ hy, hs⟩
    | some s =>
      simp only [firstScan, hF] at h
      by_cases hε : "ε" ∈ s
      · rw [if_pos hε] at h
        rcases Finset.mem_union.1 h with h1 | h2
        · exact ⟨x, List.mem_cons_self ..,
            s, hF, Finset.mem_of_mem_erase h1, Finset.ne_of_mem_erase h1⟩
        · obtain ⟨y, hy, hs⟩ := ih h2
          exact ⟨y, List.mem_cons_of_mem _ hy, hs⟩
      · rw [if_neg hε] at h
        exact ⟨x, List.mem_cons_self ..,
          s, hF, Finset.mem_of_mem_erase h, Finset.ne_of_mem_erase h⟩

theorem firstScan_no_eps (F : SymTable) : ∀ l, "ε" ∉ (firstScan F l).1 := by
  intro l h
  obtain ⟨x, _, s, _, _, hne⟩ := firstScan_mem l h
  exact hne rfl

theorem followUpdates_mem {g : Grammar} {F FL : SymTable}
    {u : String × Finset String} (hu : u ∈ followUpdates g F FL) :
    ∃ p ∈ g.productions, ∃ i < p.derivation.length,
      p.derivation.getD i "" ∈ g.non_terminals ∧
      u = (p.derivation.getD i "",
        (firstScan F (p.derivation.drop (i + 1))).1 ∪
          (if (firstScan F (p.derivation.drop (i + 1))).2 ∨
              i = p.derivation.length - 1
            then (FL p.non_terminal).getD ∅ else ∅)) := by
  obtain ⟨p, hp, hu'⟩ := List.mem_flatMap.1 hu
  obtain ⟨i, hi, hfi⟩ := List.mem_filterMap.1 hu'
  rw [List.mem_range] at hi
  refine ⟨p, hp, i, hi, ?_⟩
  by_cases hnt : p.derivation.getD i "" ∈ g.non_terminals
  · rw [if_pos hnt] at hfi
    exact ⟨hnt, (Option.some.inj hfi).symm⟩
  · rw [if_neg hnt] at hfi
    cases hfi

theorem followUpdates_mem_of (g : Grammar) (F FL : SymTable) (p : Production)
    (hp : p ∈ g.productions) (i : Nat) (hi : i < p.derivation.length)
    (hnt : p.derivation.getD i "" ∈ g.non_terminals) :
    (p.derivation.getD i "",
      (firstScan F (p.derivation.drop (i + 1))).1 ∪
        (if (firstScan F (p.derivation.drop (i + 1))).2 ∨
            i = p.derivation.length - 1
          then (FL p.non_terminal).getD ∅ else ∅)) ∈ followUpdates g F FL := by
  refine List.mem_flatMap.2 ⟨p, hp, ?_⟩
  refine List.mem_filterMap.2 ⟨i, List.mem_range.2 hi, ?_⟩
  rw [if_pos hnt]

theorem followInit_dom (g : Grammar) : FollowDomInv g (followInit g) := by
  intro k
  unfold followInit
  by_cases hn : k ∈ g.non_terminals <;> simp [hn]

theorem FollowDomInv_of_le {g : Grammar} {FL FL' : SymTable}
    (hd : FollowDomInv g FL) (hle : TableLE FL FL') : FollowDomInv g FL' :=
  fun k => by rw [← hle.1 k]; exact hd k

theorem followInit_vals (g : Grammar) (F : SymTable) :
    FollowValInv g F (followInit g) := by
  intro k
  unfold followInit followUniverse
  by_cases hn : k ∈ g.non_terminals
  · simp only [hn, if_true]
    by_cases hs : k = g.start_symbol
    · simp only [hs, if_true, Option.getD_some]
      intro x hx
      rw [Finset.mem_singleton.1 hx]
      exact Finset.mem_insert_self _ _
    · simp [hs]
  · simp [hn]

theorem followUpdates_vals {g : Grammar} {F FL : SymTable}
    (hv : FollowValInv g F FL) :
    ∀ u ∈ followUpdates g F FL, u.2 ⊆ followUniverse g F := by
  intro u hu
  obtain ⟨p, hp, i, hi, hnt, hequ⟩ := followUpdates_mem hu
  rw [hequ]
  show (firstScan F (p.derivation.drop (i + 1))).1 ∪ _ ⊆ _
  refine Finset.union_subset ?_ ?_
  · intro x hx
    obtain ⟨y, hy, s, hFy, hxs, _⟩ := firstScan_mem _ hx
    have hyder : y ∈ p.derivation := List.mem_of_mem_drop hy
    have h1 : (F y).getD ∅ ⊆
        p.derivation.foldl (fun a s => a ∪ (F s).getD ∅) ∅ :=
      foldl_union_absorb (fun s => (F s).getD ∅) p.derivation y hyder ∅
    have h2 : p.derivation.foldl (fun a s => a ∪ (F s).getD ∅) ∅ ⊆
        g.productions.foldl
          (fun acc q => acc ∪ q.derivation.foldl (fun a s => a ∪ (F s).getD ∅) ∅) ∅ :=
      foldl_union_absorb
        (fun q => q.derivation.foldl (fun a s => a ∪ (F s).getD ∅) ∅)
        g.productions p hp ∅
    refine Finset.mem_insert_of_mem (h2 (h1 ?_))
    rw [hFy]
    exact hxs
  · split
    · exact hv p.non_terminal
    · exact Finset.empty_subset _

theorem followPass_vals {g : Grammar} {F FL : SymTable}
    (hv : FollowValInv g F FL) : FollowValInv g F (followPass g F FL).1 := by
  intro k
  show ((followApply FL (followUpdates g F FL)) k).getD ∅ ⊆ _
  unfold followApply
  cases hk : FL k with
  | none => simp
  | some old =>
    simp only [Option.getD_some]
    refine foldl_cond_union_subset k _ _ ?_ old ?_
    · intro u hu _
      exact followUpdates_vals hv u hu
    · have := hv k
      rwa [hk] at this

theorem followMeasure_le_bound (g : Grammar) (F FL : SymTable)
    (hv : FollowValInv g F FL) :
    followMeasure g FL ≤ g.non_terminals.card * ((followUniverse g F).card + 1) := by
  unfold followMeasure
  calc ∑ k ∈ g.non_terminals, ((FL k).getD ∅).card
      ≤ ∑ _k ∈ g.non_terminals, ((followUniverse g F).card + 1) :=
        Finset.sum_le_sum fun k _ =>
          le_trans (Finset.card_le_card (hv k)) (Nat.le_succ _)
    _ = g.non_terminals.card * ((followUniverse g F).card + 1) := by
        rw [Finset.sum_const, smul_eq_mul]

theorem followIter_stable (g : Grammar) (F : SymTable) :
    ∀ (fuel : Nat) (FL : SymTable), FollowDomInv g FL → FollowValInv g F FL →
      g.non_terminals.card * ((followUniverse g F).card + 1) <
        followMeasure g FL + fuel →
      (followPass g F (followIter g F fuel FL)).2 = false := by
  intro fuel
  induction fuel with
  | zero =>
    intro FL _ hv hlt
    exact absurd (followMeasure_le_bound g F FL hv) (by omega)
  | succ n ih =>
    intro FL hd hv hlt
    rw [followIter_succ]
    split
    · rename_i hch
      have hle := followApply_le FL (followUpdates g F FL)
      obtain ⟨k, hks, hklt⟩ := followPass_changed g F FL hch
      have hkmem : k ∈ g.non_terminals := (hd k).1 hks
      have hmlt : followMeasure g FL < followMeasure g (followPass g F FL).1 :=
        followMeasure_lt g hle k hkmem hklt
      exact ih _ (FollowDomInv_of_le hd hle) (followPass_vals hv) (by omega)
    · rename_i hch
      rw [Bool.not_eq_true] at hch
      rw [(followPass_unchanged g F FL hch).1]
      exact hch

theorem compute_follow_sets_stable (g : Grammar) (F : SymTable) :
    (followPass g F (g.compute_follow_sets F)).2 = false := by
  apply followIter_stable g F (followFuel g F) (followInit g) (followInit_dom g)
    (followInit_vals g F)
  unfold followFuel
  omega

theorem compute_follow_sets_closed (g : Grammar) (F : SymTable) :
    ∀ u ∈ followUpdates g F (g.compute_follow_sets F), ∀ old,
      (g.compute_follow_sets F) u.1 = some old → u.2 ⊆ old :=
  (followPass_unchanged g F (g.compute_follow_sets F)
    (compute_follow_sets_stable g F)).2

theorem compute_follow_sets_dom (g : Grammar) (F : SymTable) :
    FollowDomInv g (g.compute_follow_sets F) :=
  FollowDomInv_of_le (followInit_dom g)
    (followIter_le g F (followFuel g F) (followInit g))

theorem firstScan_nullable {F : SymTable} :
    ∀ l, (firstScan F l).2 = true → ∀ x ∈ l, NullableSym F x := by
  intro l
  induction l with
  | nil => intro _ x hx; cases hx
  | cons y ys ih =>
    intro h x hx
    cases hF : F y with
    | none =>
      simp only [firstScan, hF] at h
      rcases List.mem_cons.1 hx with rfl | hx'
      · intro s hs; rw [hF] at hs; cases hs
      · exact ih h x hx'
    | some s =>
      simp only [firstScan, hF] at h
      by_cases hε : "ε" ∈ s
      · rw [if_pos hε] at h
        rcases List.mem_cons.1 hx with rfl | hx'
        · intro s' hs'
          rw [hF] at hs'
          rw [← Option.some.inj hs']
          exact hε
        · exact ih h x hx'
      · rw [if_neg hε] at h
        simp at h

theorem firstScan_all_nullable {F : SymTable} :
    ∀ l, (∀ x ∈ l, NullableSym F x) → (firstScan F l).2 = true := by
  intro l
  induction l with
  | nil => intro _; rfl
  | cons y ys ih =>
    intro h
    cases hF : F y with
    | none =>
      simp only [firstScan, hF]
      exact ih fun x hx => h x (List.mem_cons_of_mem _ hx)
    | some s =>
      have hε : "ε" ∈ s := h y (List.mem_cons_self ..) s hF
      simp only [firstScan, hF, if_pos hε]
      exact ih fun x hx => h x (List.mem_cons_of_mem _ hx)

theorem firstIter_induction (g : Grammar) (Q : SymTable → Prop)
    (hstep : ∀ F p, p ∈ g.productions → Q F → TableLE F g.compute_first_sets →
      Q (tableInsertAll F p.non_terminal (prodContrib F p)).1)
    (hinit : Q (firstInit g)) : Q g.compute_first_sets := by
  have hfold : ∀ l : List Production, (∀ p ∈ l, p ∈ g.productions) →
      ∀ (F : SymTable) (b : Bool), Q F → TableLE F g.compute_first_sets →
        Q (l.foldl firstStep (F, b)).1 ∧
        TableLE (l.foldl firstStep (F, b)).1 g.compute_first_sets := by
    intro l
    induction l with
    | nil => intro _ F b hQ hle; exact ⟨hQ, hle⟩
    | cons p t ih =>
      intro hmem F b hQ hle
      rw [List.foldl_cons]
      have hp := hmem p (List.mem_cons_self ..)
      have hQ' : Q (firstStep (F, b) p).1 := by
        rw [firstStep_fst]
        exact hstep F p hp hQ hle
      have hle' : TableLE (firstStep (F, b) p).1 g.compute_first_sets :=
        firstStep_le_closed b p hle (compute_first_sets_closed g p hp)
      exact ih (fun q hq => hmem q (List.mem_cons_of_mem _ hq)) _ _ hQ' hle'
  have hiter : ∀ (fuel : Nat) (F : SymTable), Q F →
      TableLE F g.compute_first_sets → Q (firstIter g fuel F) := by
    intro fuel
    induction fuel with
    | zero => intro F hQ _; exact hQ
    | succ n ih =>
      intro F hQ hle
      unfold firstIter
      split
      · exact ih _ (hfold g.productions (fun _ hq => hq) F false hQ hle).1
          (hfold g.productions (fun _ hq => hq) F false hQ hle).2
      · exact (hfold g.productions (fun _ hq => hq) F false hQ hle).1
  exact hiter (firstFuel g) (firstInit g) hinit
    (firstIter_le g (firstFuel g) (firstInit g))

theorem first_fixed_terminal (g : Grammar) (hwf : g.WF) (X : String)
    (hX : X ∈ g.terminals) : g.compute_first_sets X = some {X} := by
  have hXN : X ∉ g.non_terminals := hwf.2.1 X hX
  apply firstIter_induction g (fun F => F X = some {X})
  · intro F p hp hQ _
    have hne : X ≠ p.non_terminal := fun hc => hXN (hc ▸ (hwf.1 p hp).1)
    cases hF : F p.non_terminal with
    | none => rw [tableInsertAll_fst_none hF]; exact hQ
    | some old =>
      rw [tableInsertAll_fst_some hF]
      simp only [if_neg hne]
      exact hQ
  · unfold firstInit
    rw [if_neg hXN, if_pos hX]

theorem compute_first_sets_eps_none (g : Grammar) (hwf : g.WF) :
    g.compute_first_sets "ε" = none := by
  have hd := compute_first_sets_dom g "ε"
  have : ¬ ("ε" ∈ g.terminals ∪ g.non_terminals) := by
    rw [Finset.mem_union]
    rintro (h | h)
    · exact hwf.2.2.1 h
    · exact hwf.2.2.2.2.1 h
  rw [← Option.not_isSome_iff_eq_none]
  intro hc
  exact this ((hd).1 hc)

theorem first_eps_justified (g : Grammar) (hwf : g.WF)
    (hA : g.epsHeadedIsEpsilon) :
    ∀ X, "ε" ∈ (g.compute_first_sets X).getD ∅ →
      ∃ q ∈ g.productions, q.non_terminal = X ∧
        "ε" ∈ compute_first_of_string g.compute_first_sets q.derivation := by
  apply firstIter_induction g (fun F => ∀ X, "ε" ∈ (F X).getD ∅ →
    ∃ q ∈ g.productions, q.non_terminal = X ∧
      "ε" ∈ compute_first_of_string g.compute_first_sets q.derivation)
  · intro F p hp hQ hle X hX
    cases hF : F p.non_terminal with
    | none =>
      rw [tableInsertAll_fst_none hF] at hX
      exact hQ X hX
    | some old =>
      rw [tableInsertAll_fst_some hF] at hX
      by_cases hXp : X = p.non_terminal
      · subst hXp
        simp only [if_pos rfl, Option.getD_some] at hX
        rcases Finset.mem_union.1 hX with hold | hnew
        · exact hQ _ (by rw [hF]; exact hold)
        · refine ⟨p, hp, rfl, ?_⟩
          unfold prodContrib at hnew
          by_cases hhead : p.derivation.head? = some "ε"
          · rw [hA p hp hhead]
            have hnone := compute_first_sets_eps_none g hwf
            simp [compute_first_of_string, firstScan, hnone]
          · rw [if_neg hhead] at hnew
            exact compute_first_of_string_mono hle p.derivation hnew
      · simp only [if_neg hXp] at hX
        exact hQ X hX
  · intro X hX
    unfold firstInit at hX
    by_cases hN : X ∈ g.non_terminals
    · rw [if_pos hN] at hX; simp at hX
    · by_cases hT : X ∈ g.terminals
      · rw [if_neg hN, if_pos hT] at hX
        simp only [Option.getD_some, Finset.mem_singleton] at hX
        exact absurd (hX ▸ hT) hwf.2.2.1
      · rw [if_neg hN, if_neg hT] at hX; simp at hX

theorem followPass_no_eps {g : Grammar} {F FL : SymTable}
    (hFL : ∀ k, "ε" ∉ (FL k).getD ∅) :
    ∀ k, "ε" ∉ ((followPass g F FL).1 k).getD ∅ := by
  intro k
  show "ε" ∉ ((followApply FL (followUpdates g F FL)) k).getD ∅
  unfold followApply
  cases hk : FL k with
  | none => simp
  | some old =>
    simp only [Option.getD_some]
    intro hc
    rcases foldl_cond_union_mem k _ _ old hc with hin | ⟨u, hu, _, hux⟩
    · exact hFL k (by rw [hk]; exact hin)
    · obtain ⟨p, hp, i, hi, hnt, hequ⟩ := followUpdates_mem hu
      rw [hequ] at hux
      rcases Finset.mem_union.1 hux with h1 | h2
      · exact firstScan_no_eps F _ h1
      · split at h2
        · exact hFL p.non_terminal h2
        · simp at h2

theorem compute_follow_sets_no_eps (g : Grammar) (F : SymTable) :
    ∀ k, "ε" ∉ ((g.compute_follow_sets F) k).getD ∅ := by
  have hiter : ∀ (fuel : Nat) (FL : SymTable),
      (∀ k, "ε" ∉ (FL k).getD ∅) →
      ∀ k, "ε" ∉ ((followIter g F fuel FL) k).getD ∅ := by
    intro fuel
    induction fuel with
    | zero => intro FL h; exact h
    | succ n ih =>
      intro FL h
      rw [followIter_succ]
      split
      · exact ih _ (followPass_no_eps h)
      · exact followPass_no_eps h
  apply hiter
  intro k
  unfold followInit
  by_cases hn : k ∈ g.non_terminals
  · rw [if_pos hn]
    by_cases hs : k = g.start_symbol
    · rw [if_pos hs]; simp
    · rw [if_neg hs]; simp
  · rw [if_neg hn]; simp

theorem ll1GroupOk_iff (F FL : SymTable) (nt : String) :
    ∀ l, ll1GroupOk F FL nt l = true ↔
      l.Pairwise (fun p q => ll1PairOk F FL nt p q = true) := by
  intro l
  induction l with
  | nil => simp [ll1GroupOk]
  | cons p ps ih =>
    simp [ll1GroupOk, List.pairwise_cons, ih, List.all_eq_true]

theorem is_ll1_first_follow_iff (g : Grammar) :
    g.is_ll1_first_follow = true ↔
      ∀ nt ∈ (g.productions.map (fun p => p.non_terminal)).dedup,
        (g.productions_of nt).Pairwise (fun p q =>
          ll1PairOk g.compute_first_sets
            (g.compute_follow_sets g.compute_first_sets) nt p q = true) := by
  unfold Grammar.is_ll1_first_follow
  rw [List.all_eq_true]
  exact forall_congr' fun nt => forall_congr' fun _ => ll1GroupOk_iff _ _ _ _

theorem not_pairwise_split {α : Type} {R : α → α → Prop} :
    ∀ l : List α, ¬ l.Pairwise R →
      ∃ l₁ a l₂ b l₃, l = l₁ ++ a :: (l₂ ++ b :: l₃) ∧ ¬ R a b := by
  intro l
  induction l with
  | nil => intro h; exact absurd List.Pairwise.nil h
  | cons x t ih =>
    intro h
    by_cases ht : t.Pairwise R
    · have hx : ¬ ∀ y ∈ t, R x y := by
        intro hall
        exact h (List.pairwise_cons.2 ⟨hall, ht⟩)
      push_neg at hx
      obtain ⟨y, hy, hxy⟩ := hx
      obtain ⟨l₂, l₃, heq⟩ := List.append_of_mem hy
      exact ⟨[], x, l₂, y, l₃, by rw [heq]; rfl, hxy⟩
    · obtain ⟨l₁, a, l₂, b, l₃, heq, hR⟩ := ih ht
      exact ⟨x :: l₁, a, l₂, b, l₃, by rw [heq]; rfl, hR⟩

theorem pairwise_of_append_split {α : Type} {R : α → α → Prop}
    {l₁ l₂ l₃ : List α} {a b : α}
    (h : (l₁ ++ a :: (l₂ ++ b :: l₃)).Pairwise R) : R a b := by
  have h2 := (List.pairwise_append.1 h).2.1
  rw [List.pairwise_cons] at h2
  exact h2.1 b (by simp)

theorem pairwise_of_mem_mem {α : Type} {R : α → α → Prop} :
    ∀ {l : List α}, l.Pairwise R → ∀ {a b : α}, a ∈ l → b ∈ l → a ≠ b →
      R a b ∨ R b a := by
  intro l
  induction l with
  | nil => intro _ a b ha; cases ha
  | cons x t ih =>
    intro h a b ha hb hne
    rw [List.pairwise_cons] at h
    rcases List.mem_cons.1 ha with rfl | ha'
    · rcases List.mem_cons.1 hb with rfl | hb'
      · exact absurd rfl hne
      · exact Or.inl (h.1 b hb')
    · rcases List.mem_cons.1 hb with rfl | hb'
      · exact Or.inr (h.1 a ha')
      · exact ih h.2 ha' hb' hne

theorem pair_sublist_split {α : Type} {a b : α} :
    ∀ l : List α, [a, b].Sublist l →
      ∃ l₁ l₂ l₃, l = l₁ ++ a :: (l₂ ++ b :: l₃) := by
  intro l
  induction l with
  | nil => intro h; rw [List.sublist_nil] at h; cases h
  | cons x t ih =>
    intro h
    cases h with
    | cons _ h' =>
      obtain ⟨l₁, l₂, l₃, heq⟩ := ih h'
      exact ⟨x :: l₁, l₂, l₃, by rw [heq]; rfl⟩
    | cons₂ _ h' =>
      obtain ⟨l₂, l₃, heq⟩ := List.append_of_mem (List.singleton_sublist.1 h')
      exact ⟨[], l₂, l₃, by rw [heq]; rfl⟩

theorem pair_sublist_of_split {α : Type} (A B C : List α) (a b : α) :
    [a, b].Sublist (A ++ a :: (B ++ b :: C)) := by
  have h1 : [a, b].Sublist (a :: (B ++ b :: C)) := by
    apply List.Sublist.cons₂
    exact List.singleton_sublist.2 (by simp)
  exact h1.trans (List.sublist_append_right A _)

theorem productions_of_mem {g : Grammar} {nt : String} {p : Production}
    (hp : p ∈ g.productions_of nt) :
    p ∈ g.productions ∧ p.non_terminal = nt := by
  have := List.mem_filter.1 hp
  exact ⟨this.1, by simpa using this.2⟩

theorem mem_productions_of {g : Grammar} {nt : String} {p : Production}
    (hp : p ∈ g.productions) (hnt : p.non_terminal = nt) :
    p ∈ g.productions_of nt :=
  List.mem_filter.2 ⟨hp, by simpa using hnt⟩

theorem nt_mem_dedup {g : Grammar} {p : Production} (hp : p ∈ g.productions) :
    p.non_terminal ∈ (g.productions.map (fun q => q.non_terminal)).dedup :=
  List.mem_dedup.2 (List.mem_map.2 ⟨p, hp, rfl⟩)

theorem scan_subset_fos (F : SymTable) (l : List String) :
    (firstScan F l).1 ⊆ compute_first_of_string F l := by
  unfold compute_first_of_string
  split
  · exact Finset.subset_insert _ _
  · exact Finset.Subset.refl _

theorem mem_scan_of_mem_fos {F : SymTable} {l : List String} {t : String}
    (h : t ∈ compute_first_of_string F l) (hne : t ≠ "ε") :
    t ∈ (firstScan F l).1 := by
  unfold compute_first_of_string at h
  split at h
  · exact (Finset.mem_insert.1 h).resolve_left hne
  · exact h

theorem eps_mem_fos_nullable {F : SymTable} {l : List String}
    (h : "ε" ∈ compute_first_of_string F l) : (firstScan F l).2 = true := by
  unfold compute_first_of_string at h
  split at h
  · assumption
  · exact absurd h (firstScan_no_eps F l)

theorem ll1PairOk_false_rule1 (F FL : SymTable) (nt : String) (p q : Production)
    (t : String) (ht1 : t ∈ compute_first_of_string F p.derivation)
    (ht2 : t ∈ compute_first_of_string F q.derivation) :
    ll1PairOk F FL nt p q = false := by
  unfold ll1PairOk
  rw [if_pos (by rw [Finset.not_disjoint_iff]; exact ⟨t, ht1, ht2⟩)]

theorem ll1PairOk_false_rule2 (F FL : SymTable) (nt : String) (p q : Production)
    (follow : Finset String) (t : String) (hFL : FL nt = some follow)
    (hε : "ε" ∈ compute_first_of_string F p.derivation)
    (ht : t ∈ compute_first_of_string F q.derivation) (htf : t ∈ follow) :
    ll1PairOk F FL nt p q = false := by
  unfold ll1PairOk
  by_cases hd : ¬ Disjoint (compute_first_of_string F p.derivation)
      (compute_first_of_string F q.derivation)
  · rw [if_pos hd]
  · rw [if_neg hd, hFL]
    show (if _ then false else _) = false
    rw [if_pos ⟨hε, by rw [Finset.not_disjoint_iff]; exact ⟨t, ht, htf⟩⟩]

theorem ll1PairOk_false_rule3 (F FL : SymTable) (nt : String) (p q : Production)
    (follow : Finset String) (t : String) (hFL : FL nt = some follow)
    (hε : "ε" ∈ compute_first_of_string F q.derivation)
    (ht : t ∈ compute_first_of_string F p.derivation) (htf : t ∈ follow) :
    ll1PairOk F FL nt p q = false := by
  unfold ll1PairOk
  by_cases hd : ¬ Disjoint (compute_first_of_string F p.derivation)
      (compute_first_of_string F q.derivation)
  · rw [if_pos hd]
  · rw [if_neg hd, hFL]
    show (if _ then false else _) = false
    by_cases h2 : "ε" ∈ compute_first_of_string F p.derivation ∧
        ¬ Disjoint (compute_first_of_string F q.derivation) follow
    · rw [if_pos h2]
    · rw [if_neg h2,
        if_pos ⟨hε, by rw [Finset.not_disjoint_iff]; exact ⟨t, ht, htf⟩⟩]

theorem follow_closed_at (g : Grammar) (F : SymTable) (p : Production)
    (hp : p ∈ g.productions) (d1 d2 : List String) (Y : String)
    (hsplit : p.derivation = d1 ++ Y :: d2) (hY : Y ∈ g.non_terminals)
    (hnul : (firstScan F d2).2 = true)
    (flY : Finset String) (hflY : (g.compute_follow_sets F) Y = some flY) :
    ((g.compute_follow_sets F) p.non_terminal).getD ∅ ⊆ flY := by
  have hgetD : p.derivation.getD d1.length "" = Y := by
    rw [hsplit, List.getD_eq_getElem?_getD, List.getElem?_append_right (le_refl _)]
    simp
  have hdrop : p.derivation.drop (d1.length + 1) = d2 := by
    rw [hsplit, show d1 ++ Y :: d2 = (d1 ++ [Y]) ++ d2 by simp,
      show d1.length + 1 = (d1 ++ [Y]).length by simp]
    exact List.drop_left _ _
  have hi : d1.length < p.derivation.length := by
    rw [hsplit, List.length_append, List.length_cons]
    omega
  have hmem := followUpdates_mem_of g F (g.compute_follow_sets F) p hp d1.length hi
    (by rw [hgetD]; exact hY)
  have hcl := compute_follow_sets_closed g F _ hmem flY (by rw [hgetD]; exact hflY)
  have hcl2 : (firstScan F (p.derivation.drop (d1.length + 1))).1 ∪
      (if (firstScan F (p.derivation.drop (d1.length + 1))).2 ∨
          d1.length = p.derivation.length - 1
        then ((g.compute_follow_sets F) p.non_terminal).getD ∅ else ∅) ⊆ flY := hcl
  rw [hdrop, if_pos (Or.inl hnul)] at hcl2
  exact fun x hx => hcl2 (Finset.mem_union_right _ hx)

theorem first_no_bad (g : Grammar) (hwf : g.WF) (hA : g.epsHeadedIsEpsilon)
    (hval : g.is_ll1_first_follow = true) :
    ∀ X t, t ∈ (g.compute_first_sets X).getD ∅ → t ≠ "ε" →
      "ε" ∈ (g.compute_first_sets X).getD ∅ →
      t ∉ (g.compute_follow_sets g.compute_first_sets X).getD ∅ := by
  apply firstIter_induction g (fun F => ∀ X t, t ∈ (F X).getD ∅ → t ≠ "ε" →
    "ε" ∈ (g.compute_first_sets X).getD ∅ →
    t ∉ (g.compute_follow_sets g.compute_first_sets X).getD ∅)
  · -- preservation through one production's insertion
    intro F p hp hQ hle X t htM htne hfinε hflt
    cases hF : F p.non_terminal with
    | none =>
      rw [tableInsertAll_fst_none hF] at htM
      exact hQ X t htM htne hfinε hflt
    | some old =>
      rw [tableInsertAll_fst_some hF] at htM
      by_cases hXp : X = p.non_terminal
      · subst hXp
        simp only [if_pos rfl, Option.getD_some] at htM
        rcases Finset.mem_union.1 htM with hold | hnew
        · exact hQ _ t (by rw [hF]; exact hold) htne hfinε hflt
        · -- t newly contributed by production p
          have htscan : t ∈ (firstScan F p.derivation).1 := by
            unfold prodContrib at hnew
            split at hnew
            · exact absurd (Finset.mem_singleton.1 hnew) htne
            · exact mem_scan_of_mem_fos hnew htne
          have htfin : t ∈ compute_first_of_string g.compute_first_sets
              p.derivation :=
            compute_first_of_string_mono hle p.derivation
              ((scan_subset_fos F p.derivation) htscan)
          obtain ⟨q, hq, hqnt, hqε⟩ := first_eps_justified g hwf hA _ hfinε
          have hntN : p.non_terminal ∈ g.non_terminals := (hwf.1 p hp).1
          obtain ⟨follow, hFL⟩ := Option.isSome_iff_exists.1
            ((compute_follow_sets_dom g g.compute_first_sets p.non_terminal).2 hntN)
          have htfollow : t ∈ follow := by
            rw [hFL] at hflt
            exact hflt
          by_cases hpq : p = q
          · -- the self case: descend into the derivation
            have hfosε : "ε" ∈ compute_first_of_string g.compute_first_sets
                p.derivation := hpq ▸ hqε
            have hnul := eps_mem_fos_nullable hfosε
            have hallnul := firstScan_nullable p.derivation hnul
            obtain ⟨Y, hYder, s, hFY, htY, _⟩ := firstScan_mem p.derivation htscan
            have hYsome : (g.compute_first_sets Y).isSome := by
              rw [← hle.1 Y, hFY]
              rfl
            have hYmem := (compute_first_sets_dom g Y).1 hYsome
            have hYN : Y ∈ g.non_terminals := by
              rcases Finset.mem_union.1 hYmem with hT | hN
              · exfalso
                have hfix := first_fixed_terminal g hwf Y hT
                have hεY := hallnul Y hYder {Y} hfix
                rw [Finset.mem_singleton] at hεY
                exact hwf.2.2.1 (hεY ▸ hT)
              · exact hN
            have hfinεY : "ε" ∈ (g.compute_first_sets Y).getD ∅ := by
              obtain ⟨sY, hsY⟩ := Option.isSome_iff_exists.1 hYsome
              rw [hsY]
              exact hallnul Y hYder sY hsY
            obtain ⟨flY, hflY⟩ := Option.isSome_iff_exists.1
              ((compute_follow_sets_dom g g.compute_first_sets Y).2 hYN)
            obtain ⟨d1, d2, hsplit⟩ := List.append_of_mem hYder
            have hd2nul : (firstScan g.compute_first_sets d2).2 = true := by
              apply firstScan_all_nullable
              intro x hx
              exact hallnul x (by rw [hsplit]; simp [hx])
            have hsub := follow_closed_at g g.compute_first_sets p hp d1 d2 Y
              hsplit hYN hd2nul flY hflY
            have htflY : t ∈ (g.compute_follow_sets g.compute_first_sets Y).getD ∅ := by
              rw [hflY]
              exact hsub (by rw [hFL, Option.getD_some]; exact htfollow)
            exact hQ Y t (by rw [hFY]; exact htY) htne hfinεY htflY
          · -- two different productions of the same non-terminal: a pair rule fires
            have hpgrp : p ∈ g.productions_of p.non_terminal :=
              mem_productions_of hp rfl
            have hqgrp : q ∈ g.productions_of p.non_terminal :=
              mem_productions_of hq hqnt
            have hpw := (is_ll1_first_follow_iff g).1 hval p.non_terminal
              (nt_mem_dedup hp)
            rcases pairwise_of_mem_mem hpw hpgrp hqgrp hpq with hok | hok
            · exact absurd hok (by
                rw [ll1PairOk_false_rule3 g.compute_first_sets _ p.non_terminal p q
                  follow t hFL hqε htfin htfollow]
                simp)
            · exact absurd hok (by
                rw [ll1PairOk_false_rule2 g.compute_first_sets _ p.non_terminal q p
                  follow t hFL hqε htfin htfollow]
                simp)
      · simp only [if_neg hXp] at htM
        exact hQ X t htM htne hfinε hflt
  · -- the initial table has no bad member
    intro X t htI htne hfinε _
    unfold firstInit at htI
    by_cases hN : X ∈ g.non_terminals
    · rw [if_pos hN] at htI; simp at htI
    · by_cases hT : X ∈ g.terminals
      · rw [if_neg hN, if_pos hT] at htI
        simp only [Option.getD_some, Finset.mem_singleton] at htI
        subst htI
        have hfix := first_fixed_terminal g hwf t hT
        rw [hfix] at hfinε
        simp only [Option.getD_some, Finset.mem_singleton] at hfinε
        exact htne hfinε.symm
      · rw [if_neg hN, if_neg hT] at htI; simp at htI

theorem buildStep_dom_cases {F FL : SymTable} (acc : TableMap × Bool)
    (p : Production) (key : String × String)
    (h : (buildStep F FL acc p).1 key ≠ none) :
    prodWrites F FL p key ∨ acc.1 key ≠ none := by
  simp only [buildStep] at h
  split at h
  · rename_i heps
    dsimp only at h
    split at h
    · rename_i hcond
      exact Or.inl ⟨hcond.1, Or.inr ⟨heps, hcond.2⟩⟩
    · split at h
      · rename_i hcond
        exact Or.inl ⟨hcond.1, Or.inl hcond.2⟩
      · exact Or.inr h
  · dsimp only at h
    split at h
    · rename_i hcond
      exact Or.inl ⟨hcond.1, Or.inl hcond.2⟩
    · exact Or.inr h

theorem buildStep_snd_cases {F FL : SymTable} (acc : TableMap × Bool)
    (p : Production) (h : (buildStep F FL acc p).2 = true) :
    acc.2 = true ∨
    (∃ t ∈ (compute_first_of_string F p.derivation).erase "ε",
      acc.1 (p.non_terminal, t) ≠ none) ∨
    ("ε" ∈ compute_first_of_string F p.derivation ∧
      ∃ t ∈ (FL p.non_terminal).getD ∅,
        t ∈ (compute_first_of_string F p.derivation).erase "ε" ∨
          acc.1 (p.non_terminal, t) ≠ none) := by
  simp only [buildStep] at h
  split at h
  · rename_i heps
    dsimp only at h
    rw [Bool.or_eq_true, Bool.or_eq_true] at h
    rcases h with (hacc | hc1) | hc2
    · exact Or.inl hacc
    · rw [decide_eq_true_eq] at hc1
      exact Or.inr (Or.inl hc1)
    · rw [decide_eq_true_eq] at hc2
      obtain ⟨t, htfl, hne⟩ := hc2
      refine Or.inr (Or.inr ⟨heps, t, htfl, ?_⟩)
      split at hne
      · rename_i hcond
        exact Or.inl hcond.2
      · exact Or.inr hne
  · dsimp only at h
    rw [Bool.or_eq_true] at h
    rcases h with hacc | hc1
    · exact Or.inl hacc
    · rw [decide_eq_true_eq] at hc1
      exact Or.inr (Or.inl hc1)

theorem buildStep_writes_follow {F FL : SymTable} (acc : TableMap × Bool)
    (p : Production) (t : String)
    (hε : "ε" ∈ compute_first_of_string F p.derivation)
    (ht : t ∈ (FL p.non_terminal).getD ∅) :
    (buildStep F FL acc p).1 (p.non_terminal, t) ≠ none := by
  simp only [buildStep]
  split
  · dsimp only
    rw [if_pos ⟨rfl, ht⟩]
    simp
  · rename_i hno
    exact absurd hε hno

theorem buildStep_snd_of_follow {F FL : SymTable} (acc : TableMap × Bool)
    (p : Production) (t : String)
    (hε : "ε" ∈ compute_first_of_string F p.derivation)
    (ht : t ∈ (FL p.non_terminal).getD ∅)
    (hocc : acc.1 (p.non_terminal, t) ≠ none) :
    (buildStep F FL acc p).2 = true := by
  simp only [buildStep]
  split
  · dsimp only
    rw [Bool.or_eq_true]
    right
    rw [decide_eq_true_eq]
    refine ⟨t, ht, ?_⟩
    split
    · simp
    · exact hocc
  · rename_i hno
    exact absurd hε hno

theorem fl_some_of_mem {FL : SymTable} {nt t : String}
    (h : t ∈ (FL nt).getD ∅) :
    ∃ follow, FL nt = some follow ∧ t ∈ follow := by
  cases hFL : FL nt with
  | none => rw [hFL] at h; simp at h
  | some s =>
    refine ⟨s, rfl, ?_⟩
    rw [hFL] at h
    simpa using h

theorem no_cell_collision (g : Grammar) (nt : String) (p q : Production)
    (hR : ll1PairOk g.compute_first_sets
        (g.compute_follow_sets g.compute_first_sets) nt p q = true ∨
      ll1PairOk g.compute_first_sets
        (g.compute_follow_sets g.compute_first_sets) nt q p = true)
    (t : String)
    (hpw : prodWrites g.compute_first_sets
      (g.compute_follow_sets g.compute_first_sets) p (nt, t))
    (hqw : prodWrites g.compute_first_sets
      (g.compute_follow_sets g.compute_first_sets) q (nt, t)) :
    False := by
  have hpnt : p.non_terminal = nt := hpw.1.symm
  have hqnt : q.non_terminal = nt := hqw.1.symm
  rcases hpw.2 with hpF | ⟨hpε, hpfl⟩ <;> rcases hqw.2 with hqF | ⟨hqε, hqfl⟩
  · -- both cells come from FIRST-of-rhs: rule 1 fires in both orientations
    have hp1 := Finset.mem_of_mem_erase hpF
    have hq1 := Finset.mem_of_mem_erase hqF
    rcases hR with h | h
    · rw [ll1PairOk_false_rule1 _ _ nt p q t hp1 hq1] at h; cases h
    · rw [ll1PairOk_false_rule1 _ _ nt q p t hq1 hp1] at h; cases h
  · -- p wrote a FIRST cell, q an ε/FOLLOW cell: rules 2/3 fire
    have hp1 := Finset.mem_of_mem_erase hpF
    rw [hqnt] at hqfl
    obtain ⟨follow, hFL, htf⟩ := fl_some_of_mem hqfl
    rcases hR with h | h
    · rw [ll1PairOk_false_rule3 _ _ nt p q follow t hFL hqε hp1 htf] at h
      cases h
    · rw [ll1PairOk_false_rule2 _ _ nt q p follow t hFL hqε hp1 htf] at h
      cases h
  · -- symmetric to the previous case
    have hq1 := Finset.mem_of_mem_erase hqF
    rw [hpnt] at hpfl
    obtain ⟨follow, hFL, htf⟩ := fl_some_of_mem hpfl
    rcases hR with h | h
    · rw [ll1PairOk_false_rule2 _ _ nt p q follow t hFL hpε hq1 htf] at h
      cases h
    · rw [ll1PairOk_false_rule3 _ _ nt q p follow t hFL hpε hq1 htf] at h
      cases h
  · -- both nullable: ε is a common FIRST-of-rhs member, rule 1 fires
    rcases hR with h | h
    · rw [ll1PairOk_false_rule1 _ _ nt p q "ε" hpε hqε] at h; cases h
    · rw [ll1PairOk_false_rule1 _ _ nt q p "ε" hqε hpε] at h; cases h

theorem no_self_conflict (g : Grammar) (hwf : g.WF) (hA : g.epsHeadedIsEpsilon)
    (hval : g.is_ll1_first_follow = true) (p : Production)
    (hp : p ∈ g.productions) (t : String)
    (hε : "ε" ∈ compute_first_of_string g.compute_first_sets p.derivation)
    (ht : t ∈ (compute_first_of_string g.compute_first_sets p.derivation).erase "ε")
    (htfl : t ∈ ((g.compute_follow_sets g.compute_first_sets)
      p.non_terminal).getD ∅) :
    False := by
  have htne : t ≠ "ε" := (Finset.mem_erase.1 ht).1
  have htfos := (Finset.mem_erase.1 ht).2
  by_cases hhead : p.derivation.head? = some "ε"
  · -- the ε-headed production is literally [ε]; its FIRST-of-rhs is {ε}
    have hder := hA p hp hhead
    rw [hder] at htfos
    have hFε : g.compute_first_sets "ε" = none := by
      cases hF : g.compute_first_sets "ε" with
      | none => rfl
      | some s =>
        exfalso
        have hd : "ε" ∈ g.terminals ∪ g.non_terminals :=
          (compute_first_sets_dom g "ε").1 (by rw [hF]; rfl)
        rcases Finset.mem_union.1 hd with hmem | hmem
        · exact hwf.2.2.1 hmem
        · exact hwf.2.2.2.2.1 hmem
    rw [show compute_first_of_string g.compute_first_sets ["ε"] = {"ε"} by
      simp only [compute_first_of_string, firstScan, hFε, if_true]
      rfl] at htfos
    exact htne (Finset.mem_singleton.1 htfos)
  · -- otherwise the whole FIRST-of-rhs lands in FIRST(A): first/follow clash
    have hcontrib : prodContrib g.compute_first_sets p =
        compute_first_of_string g.compute_first_sets p.derivation := by
      unfold prodContrib
      rw [if_neg hhead]
    have hntN : p.non_terminal ∈ g.non_terminals := (hwf.1 p hp).1
    obtain ⟨old, hold⟩ := Option.isSome_iff_exists.1
      ((compute_first_sets_dom g p.non_terminal).2
        (Finset.mem_union_right _ hntN))
    have hsub := compute_first_sets_closed g p hp old hold
    rw [hcontrib] at hsub
    exact first_no_bad g hwf hA hval p.non_terminal t
      (by rw [hold]; exact hsub htfos) htne (by rw [hold]; exact hsub hε) htfl

theorem foldl_buildStep_no_conflict (g : Grammar) (hwf : g.WF)
    (hA : g.epsHeadedIsEpsilon) (hval : g.is_ll1_first_follow = true) :
    ∀ (l2 l1 : List Production), g.productions = l1 ++ l2 →
      ∀ acc : TableMap × Bool, acc.2 = false →
        (∀ key, acc.1 key ≠ none → ∃ q ∈ l1,
          prodWrites g.compute_first_sets
            (g.compute_follow_sets g.compute_first_sets) q key) →
        (l2.foldl (buildStep g.compute_first_sets
          (g.compute_follow_sets g.compute_first_sets)) acc).2 = false := by
  intro l2
  induction l2 with
  | nil => intro l1 _ acc hacc _; exact hacc
  | cons p rest ih =>
    intro l1 hsplit acc hacc hdom
    rw [List.foldl_cons]
    have hp : p ∈ g.productions := by rw [hsplit]; simp
    -- every earlier writer of a cell of `p` passes the pair rules against `p`
    have horient : ∀ q ∈ l1, q.non_terminal = p.non_terminal →
        ll1PairOk g.compute_first_sets
          (g.compute_follow_sets g.compute_first_sets)
          p.non_terminal q p = true := by
      intro q hq hqnt
      obtain ⟨A, B, hl1⟩ := List.append_of_mem hq
      have hprods : g.productions = A ++ q :: (B ++ p :: rest) := by
        rw [hsplit, hl1]
        simp
      have hgroup : g.productions_of p.non_terminal =
          A.filter (fun r => r.non_terminal = p.non_terminal) ++ q ::
            (B.filter (fun r => r.non_terminal = p.non_terminal) ++ p ::
              rest.filter (fun r => r.non_terminal = p.non_terminal)) := by
        unfold Grammar.productions_of
        rw [hprods]
        simp [List.filter_append, List.filter_cons, hqnt]
      have hsub : [q, p].Sublist (g.productions_of p.non_terminal) := by
        rw [hgroup]
        exact pair_sublist_of_split _ _ _ q p
      have hpw := (is_ll1_first_follow_iff g).1 hval p.non_terminal
        (nt_mem_dedup hp)
      have hqp := hpw.sublist hsub
      rw [List.pairwise_cons] at hqp
      exact hqp.1 p (by simp)
    have hflag : (buildStep g.compute_first_sets
        (g.compute_follow_sets g.compute_first_sets) acc p).2 = false := by
      cases hb : (buildStep g.compute_first_sets
          (g.compute_follow_sets g.compute_first_sets) acc p).2 with
      | false => rfl
      | true =>
        exfalso
        rcases buildStep_snd_cases acc p hb with hacc2 | hfirst | heps
        · rw [hacc] at hacc2; cases hacc2
        · obtain ⟨t, hterase, hocc⟩ := hfirst
          obtain ⟨q, hq, hqw⟩ := hdom _ hocc
          have hqnt : q.non_terminal = p.non_terminal := hqw.1.symm
          exact no_cell_collision g p.non_terminal q p
            (Or.inl (horient q hq hqnt)) t hqw ⟨rfl, Or.inl hterase⟩
        · obtain ⟨hε, t, htfl, hcase⟩ := heps
          rcases hcase with hterase | hocc
          · exact no_self_conflict g hwf hA hval p hp t hε hterase htfl
          · obtain ⟨q, hq, hqw⟩ := hdom _ hocc
            have hqnt : q.non_terminal = p.non_terminal := hqw.1.symm
            exact no_cell_collision g p.non_terminal q p
              (Or.inl (horient q hq hqnt)) t hqw ⟨rfl, Or.inr ⟨hε, htfl⟩⟩
    apply ih (l1 ++ [p]) (by rw [hsplit]; simp) _ hflag
    intro key hkey
    rcases buildStep_dom_cases acc p key hkey with hw | hold
    · exact ⟨p, by simp, hw⟩
    · obtain ⟨q, hq, hqw⟩ := hdom key hold
      exact ⟨q, by simp [hq], hqw⟩

theorem build_ok_of_validator (g : Grammar) (hwf : g.WF)
    (hA : g.epsHeadedIsEpsilon) (hval : g.is_ll1_first_follow = true) :
    (ParsingTable.build g).isOk = true := by
  unfold ParsingTable.build
  have hflag := foldl_buildStep_no_conflict g hwf hA hval g.productions []
    rfl ((fun _ => none), false) rfl (fun key hk => absurd rfl hk)
  rw [if_neg (by rw [hflag]; exact Bool.false_ne_true)]
  rfl

theorem ll1PairOk_false_cases (F FL : SymTable) (nt : String) (p q : Production)
    (h : ll1PairOk F FL nt p q = false) :
    (∃ t, t ∈ compute_first_of_string F p.derivation ∧
      t ∈ compute_first_of_string F q.derivation) ∨
    (∃ follow, FL nt = some follow ∧
      (("ε" ∈ compute_first_of_string F p.derivation ∧
         ∃ t, t ∈ compute_first_of_string F q.derivation ∧ t ∈ follow) ∨
       ("ε" ∈ compute_first_of_string F q.derivation ∧
         ∃ t, t ∈ compute_first_of_string F p.derivation ∧ t ∈ follow))) := by
  unfold ll1PairOk at h
  split at h
  · rename_i hnd
    left
    rw [Finset.not_disjoint_iff] at hnd
    exact hnd
  · split at h
    · cases h
    · rename_i follow hFL
      right
      refine ⟨follow, hFL, ?_⟩
      split at h
      · rename_i hc
        obtain ⟨hε, hnd⟩ := hc
        rw [Finset.not_disjoint_iff] at hnd
        exact Or.inl ⟨hε, hnd⟩
      · split at h
        · rename_i hc
          obtain ⟨hε, hnd⟩ := hc
          rw [Finset.not_disjoint_iff] at hnd
          exact Or.inr ⟨hε, hnd⟩
        · cases h

theorem build_err_of_writes (g : Grammar) (a b : Production)
    (m1 m2 m3 : List Production)
    (hprods : g.productions = m1 ++ a :: (m2 ++ b :: m3))
    (key : String × String)
    (hwa : ∀ acc : TableMap × Bool,
      (buildStep g.compute_first_sets
        (g.compute_follow_sets g.compute_first_sets) acc a).1 key ≠ none)
    (hwb : ∀ acc : TableMap × Bool, acc.1 key ≠ none →
      (buildStep g.compute_first_sets
        (g.compute_follow_sets g.compute_first_sets) acc b).2 = true) :
    ParsingTable.build g =
      .error "Grammar is not LL(1) - parsing table has conflicts" := by
  unfold ParsingTable.build
  rw [hprods]
  have hflag : ∀ acc : TableMap × Bool,
      ((m1 ++ a :: (m2 ++ b :: m3)).foldl (buildStep g.compute_first_sets
        (g.compute_follow_sets g.compute_first_sets)) acc).2 = true := by
    intro acc
    rw [List.foldl_append, List.foldl_cons, List.foldl_append, List.foldl_cons]
    apply foldl_buildStep_snd_mono
    apply hwb
    apply foldl_buildStep_keeps
    exact hwa _
  rw [if_pos (hflag _)]

theorem build_err_of_not_validator (g : Grammar) (hB : g.epsPairsHaveFollow)
    (hval : g.is_ll1_first_follow = false) :
    ParsingTable.build g =
      .error "Grammar is not LL(1) - parsing table has conflicts" := by
  have hnot : ¬ ∀ nt ∈ (g.productions.map fun p => p.non_terminal).dedup,
      (g.productions_of nt).Pairwise (fun p q =>
        ll1PairOk g.compute_first_sets
          (g.compute_follow_sets g.compute_first_sets) nt p q = true) := by
    intro hall
    rw [← is_ll1_first_follow_iff] at hall
    rw [hval] at hall
    cases hall
  push_neg at hnot
  obtain ⟨nt, hnt, hnpw⟩ := hnot
  obtain ⟨k1, a, k2, b, k3, hgroup, hRab⟩ := not_pairwise_split _ hnpw
  rw [Bool.not_eq_true] at hRab
  have hamem : a ∈ g.productions_of nt := by rw [hgroup]; simp
  have hbmem : b ∈ g.productions_of nt := by rw [hgroup]; simp
  have hant : a.non_terminal = nt := (productions_of_mem hamem).2
  have hbnt : b.non_terminal = nt := (productions_of_mem hbmem).2
  have hsubgrp : [a, b].Sublist (g.productions_of nt) := by
    rw [hgroup]
    exact pair_sublist_of_split _ _ _ a b
  have hsubprods : [a, b].Sublist g.productions :=
    hsubgrp.trans (List.filter_sublist _)
  obtain ⟨m1, m2, m3, hprods⟩ := pair_sublist_split _ hsubprods
  rcases ll1PairOk_false_cases _ _ nt a b hRab with
    ⟨t, hta, htb⟩ | ⟨follow, hFL, hcase⟩
  · by_cases htne : t = "ε"
    · -- only ε in common: both nullable, they clash on a nonempty FOLLOW cell
      subst htne
      have hfolne : ((g.compute_follow_sets g.compute_first_sets) nt).getD ∅
          ≠ ∅ := by
        have hpw := hB nt hnt
        have hab := hpw.sublist hsubgrp
        rw [List.pairwise_cons] at hab
        exact hab.1 b (by simp) hta htb
      obtain ⟨u, hu⟩ := Finset.nonempty_iff_ne_empty.2 hfolne
      refine build_err_of_writes g a b m1 m2 m3 hprods (nt, u)
        (fun acc => ?_) (fun acc hocc => ?_)
      · have := buildStep_writes_follow acc a u hta (by rw [hant]; exact hu)
        rw [hant] at this
        exact this
      · exact buildStep_snd_of_follow acc b u htb (by rw [hbnt]; exact hu)
          (by rw [hbnt]; exact hocc)
    · -- a common non-ε terminal: two FIRST writes clash
      refine build_err_of_writes g a b m1 m2 m3 hprods (nt, t)
        (fun acc => ?_) (fun acc hocc => ?_)
      · have := @buildStep_writes_first g.compute_first_sets
          (g.compute_follow_sets g.compute_first_sets) acc a t hta htne
        rw [hant] at this
        exact this
      · exact buildStep_snd_of_first acc b t htb htne (by rw [hbnt]; exact hocc)
  · rcases hcase with ⟨hεa, t, htb, htf⟩ | ⟨hεb, t, hta, htf⟩
    · -- a is nullable and t sits in both FIRST(b-rhs) and FOLLOW(nt)
      have htfl : t ∈ ((g.compute_follow_sets g.compute_first_sets) nt).getD ∅ := by
        rw [hFL]
        exact htf
      have htne : t ≠ "ε" := fun hc =>
        compute_follow_sets_no_eps g g.compute_first_sets nt (hc ▸ htfl)
      refine build_err_of_writes g a b m1 m2 m3 hprods (nt, t)
        (fun acc => ?_) (fun acc hocc => ?_)
      · have := buildStep_writes_follow acc a t hεa (by rw [hant]; exact htfl)
        rw [hant] at this
        exact this
      · exact buildStep_snd_of_first acc b t htb htne (by rw [hbnt]; exact hocc)
    · -- b is nullable and t sits in both FIRST(a-rhs) and FOLLOW(nt)
      have htfl : t ∈ ((g.compute_follow_sets g.compute_first_sets) nt).getD ∅ := by
        rw [hFL]
        exact htf
      have htne : t ≠ "ε" := fun hc =>
        compute_follow_sets_no_eps g g.compute_first_sets nt (hc ▸ htfl)
      refine build_err_of_writes g a b m1 m2 m3 hprods (nt, t)
        (fun acc => ?_) (fun acc hocc => ?_)
      · have := @buildStep_writes_first g.compute_first_sets
          (g.compute_follow_sets g.compute_first_sets) acc a t hta htne
        rw [hant] at this
        exact this
      · exact buildStep_snd_of_follow acc b t hεb (by rw [hbnt]; exact htfl)
          (by rw [hbnt]; exact hocc)

/-- Claim C1, amended: the FIRST/FOLLOW validator and parsing-table
construction agree — the validator accepts exactly when the table builds
without conflict — provided the grammar is well-formed (symbols classified,
no empty right-hand side, `ε`/`$` outside both vocabularies), no production
starts with `ε` unless it is literally `[ε]`, and any two nullable
productions of one non-terminal only occur when that non-terminal's FOLLOW
set is nonempty. (The unconditional equivalence of the original claim fails
in both directions, see `C1_counterexample`.) -/
theorem C1_amended (g : Grammar) (hwf : g.WF) (hA : g.epsHeadedIsEpsilon)
    (hB : g.epsPairsHaveFollow) :
    g.is_ll1_first_follow = true ↔ (ParsingTable.build g).isOk = true := by
  constructor
  · exact build_ok_of_validator g hwf hA
  · intro hok
    cases hval : g.is_ll1_first_follow with
    | true => rfl
    | false =>
      rw [build_err_of_not_validator g hB hval] at hok
      exact absurd hok (by simp [Except.isOk, Except.toBool])

/-- Claim C1, witness: the scenario-A grammar satisfies the three amendment
hypotheses, and on it the validator verdict and table construction agree. -/
theorem C1_witness :
    (gA.WF ∧ gA.epsHeadedIsEpsilon ∧ gA.epsPairsHaveFollow) ∧
      (gA.is_ll1_first_follow = true ↔ (ParsingTable.build gA).isOk = true) :=
  ⟨⟨by decide, by decide, by decide⟩,
    C1_amended gA (by decide) (by decide) (by decide)⟩

end LL1
